import Mathlib

/-!
# systemMgt-go: disk usage aggregator and image converter

A shallow embedding of `diskusage/diskusage.go` (package `filesystem`:
`GetDiskUsage`, `walkDir`, `dirents`, `sema`, `printProgress`) and of the
validation part of `ImageConv/imgconv.go` (`parseflags`, `imgconv`).

The goroutines of `GetDiskUsage` are embedded as a transition system: a state
holds the main goroutine's loop index and totals, the pool of live `walkDir`
goroutines, the `sync.WaitGroup` counter, the closer goroutine, the number of
tokens in `sema` and the progress lines printed so far.  One scheduler action
is one atomic step of one goroutine; every interleaving of the goroutines is a
sequence of such actions.

Conventions of the embedding:

* the totals are `int64`: every addition is followed by `wrap64`;
* a file is any directory entry whose `IsDir()` is false;
* a send on the unbuffered channel `fileSizes[i]` and the matching receive and
  update of the totals by the main goroutine are one step, and so are
  `wg.Add(1)` and the `go` statement that follows it: no other goroutine reads
  the totals, and the counter is positive on both sides of the `go` statement;
* the main goroutine scans the roots one after the other, as the `for` loop of
  the source does: the receive loop of root `i` is inside the loop body.
-/

namespace DiskUsage

/-! ## Data model -/

/-- Go `int64` arithmetic: the two's-complement reduction of an integer result. -/
def wrap64 (x : Int) : Int :=
  (x + 9223372036854775808) % 18446744073709551616 - 9223372036854775808

/-- A path of the file system together with what lies under it.  A `file` is
any entry whose `IsDir()` is false; a `dir` carries the entries that are really
in it and `err`, whether `ioutil.ReadDir` on it fails (permission denied,
vanished). A path stands for the node it names, so `filepath.Join(dir,
entry.Name())` is the entry node itself. -/
inductive Node where
  | file (name : String) (size : Int)
  | dir (name : String) (err : Bool) (entries : List Node)

/-- Method `entry.IsDir()` of `os.FileInfo`. -/
def Node.IsDir : Node → Bool
  | .file _ _ => false
  | .dir _ _ _ => true

/-- Method `entry.Size()` of `os.FileInfo`; only read for non-directories. -/
def Node.Size : Node → Int
  | .file _ sz => sz
  | .dir _ _ _ => 0

/-- Method `entry.Name()` of `os.FileInfo`. -/
def Node.Name : Node → String
  | .file n _ => n
  | .dir n _ _ => n

/-- Library call `ioutil.ReadDir(dir)`: `none` is a non-nil error (the path is
not a directory, or its listing fails). -/
def ReadDir : Node → Option (List Node)
  | .file _ _ => none
  | .dir _ err es => if err then none else some es

/-- Counting semaphore `sema = make(chan struct{}, 100)`: its capacity. -/
def semaCap : Nat := 100

/-- Send `sema <- struct{}{}` on a buffered channel of capacity `K` holding
`held` tokens: blocks (`none`) when the buffer is full. -/
def semaAcquire (K held : Nat) : Option Nat :=
  if held < K then some (held + 1) else none

/-- Receive `<-sema`: blocks (`none`) when the buffer is empty. -/
def semaRelease (held : Nat) : Option Nat :=
  if 0 < held then some (held - 1) else none

/-- Value returned by `dirents(dir)`: the entries, or `nil` when `ReadDir`
reports an error (the error goes to stderr). -/
def direntsResult (d : Node) : List Node :=
  match ReadDir d with
  | none => []
  | some es => es

/-- Function `dirents(dir)` run without interruption by a caller that finds
`held` tokens in a semaphore of capacity `K`: acquire, list, deferred release.
Returns the tokens held afterwards and the entries. -/
def dirents (K held : Nat) (d : Node) : Option (Nat × List Node) :=
  (semaAcquire K held).bind fun h =>
    (semaRelease h).map fun h2 => (h2, direntsResult d)

/-! ## Reference: the files reachable from a root -/

mutual
/-- Sizes of the non-directory entries reachable from a path by descending
through the directories whose listing succeeds. -/
def Node.walk : Node → List Int
  | .file _ _ => []
  | .dir _ err es => if err then [] else walkEntries es
/-- Sizes reachable from a list of entries. -/
def walkEntries : List Node → List Int
  | [] => []
  | e :: es => walkEntry e ++ walkEntries es
/-- Sizes reachable from one entry: its own size for a file, its content for a
directory. -/
def walkEntry : Node → List Int
  | .file _ sz => [sz]
  | .dir _ err es => if err then [] else walkEntries es
end

/-- Number of files reachable from a root. -/
def Node.count (r : Node) : Int := r.walk.length

/-- Sum of the sizes of the files reachable from a root. -/
def Node.bytes (r : Node) : Int := r.walk.sum

mutual
/-- Sizes of all non-directory entries under a path, failed listings included. -/
def Node.allSizes : Node → List Int
  | .file _ _ => []
  | .dir _ _ es => allSizesEntries es
/-- Sizes of all files under a list of entries. -/
def allSizesEntries : List Node → List Int
  | [] => []
  | e :: es => allSizesEntry e ++ allSizesEntries es
/-- Sizes of all files at or under one entry. -/
def allSizesEntry : Node → List Int
  | .file _ sz => [sz]
  | .dir _ _ es => allSizesEntries es
end

/-! ## The goroutines of `GetDiskUsage` -/

/-- A live `walkDir(dir, wg, filesizes)` goroutine. -/
inductive Task where
  /-- Spawned, about to send on `sema` inside `dirents(dir)`. -/
  | start (dir : Node)
  /-- Inside `dirents(dir)` between the acquire and the return: holds a token. -/
  | reading (dir : Node)
  /-- In `for _, entry := range ...` with these entries still to visit. -/
  | ranging (entries : List Node)

/-- Statement `go walkDir(dir, wg, filesizes)`: the goroutine it spawns, at its
first statement.  The body of `walkDir` is run by the actions `acquire`, `list`
(its call of `dirents`), `visit` (its range loop) and `done` (its deferred
`wg.Done()`). -/
@[reducible] def walkDir (dir : Node) : Task := .start dir

/-- The goroutine `go func() { wg.Wait(); close(fileSizes[i]) }()`. -/
inductive Closer where
  | waiting
  | woken
  | closed
  deriving DecidableEq

/-- State of a call `GetDiskUsage(roots, verbose)`. -/
structure State where
  /-- Index of `for i, root := range roots`. -/
  i : Nat
  /-- Whether the main goroutine is in the receive loop of root `i`. -/
  active : Bool
  nfiles : List Int
  nbytes : List Int
  /-- Live `walkDir` goroutines of root `i`. -/
  tasks : List Task
  /-- Counter of the `sync.WaitGroup` of root `i`. -/
  wg : Int
  closer : Closer
  /-- Tokens in the buffer of `sema`. -/
  held : Nat
  /-- Calls `printProgress(nfiles[i], nbytes[i], root)` made so far, as
  `(i, nfiles[i], nbytes[i])`, oldest first. -/
  out : List (Nat × Int × Int)

/-- Call `printProgress(nfiles, nbytes, dir)`: one more line on standard output,
recorded with the index of the root `dir`. -/
@[reducible] def printProgress (nfiles nbytes : Int) (i : Nat) (out : List (Nat × Int × Int)) :
    List (Nat × Int × Int) :=
  out ++ [(i, nfiles, nbytes)]

/-- One atomic step of one goroutine. -/
inductive Act where
  /-- Main: `wg.Add(1); go walkDir(root, &wg, fileSizes[i]); go func() {...}()`. -/
  | launch
  /-- Task `j`: `sema <- struct{}{}` in `dirents`. -/
  | acquire (j : Nat)
  /-- Task `j`: `ReadDir` returns, the deferred `<-sema` runs, `dirents` returns. -/
  | list (j : Nat)
  /-- Task `j`: one iteration of the range loop; for a directory `wg.Add(1)` and
  `go walkDir(subdir, ...)`, for a file the rendezvous `filesizes <- entry.Size()`
  with the main goroutine's `case size, ok := <-fileSizes[i]`. -/
  | visit (j : Nat)
  /-- Task `j`: the loop is over, the deferred `wg.Done()` runs. -/
  | done (j : Nat)
  /-- Closer: `wg.Wait()` returns. -/
  | wake
  /-- Closer: `close(fileSizes[i])`. -/
  | close
  /-- Main: receives `!ok`, `break loop`, next `i`. -/
  | brk
  /-- Main: `case <-tick: printProgress(nfiles[i], nbytes[i], root)`. -/
  | tick

/-- State at entry of the `for i, root := range roots` loop: both result slices
are `make([]int64, len(roots))`. -/
def init (roots : List Node) : State where
  i := 0
  active := false
  nfiles := List.replicate roots.length 0
  nbytes := List.replicate roots.length 0
  tasks := []
  wg := 0
  closer := .waiting
  held := 0
  out := []

/-- Effect of one action, `none` when the goroutine cannot take that step in
this state (it is blocked, or is not at that statement). -/
def exec (K : Nat) (roots : List Node) (verbose : Bool) (a : Act) (s : State) :
    Option State :=
  match a with
  | .launch =>
    if s.active then none else
      match roots[s.i]? with
      | none => none
      | some r =>
        some { s with active := true, tasks := [walkDir r], wg := 1, closer := .waiting }
  | .acquire j =>
    match s.tasks[j]? with
    | some (.start d) =>
      (semaAcquire K s.held).map fun h =>
        { s with tasks := s.tasks.set j (.reading d), held := h }
    | _ => none
  | .list j =>
    match s.tasks[j]? with
    | some (.reading d) =>
      (semaRelease s.held).map fun h =>
        { s with tasks := s.tasks.set j (.ranging (direntsResult d)), held := h }
    | _ => none
  | .visit j =>
    match s.tasks[j]? with
    | some (.ranging (e :: es)) =>
      if e.IsDir then
        some { s with wg := s.wg + 1, tasks := s.tasks.set j (.ranging es) ++ [walkDir e] }
      else if s.active && s.closer != .closed then
        some { s with
          tasks := s.tasks.set j (.ranging es)
          nfiles := s.nfiles.set s.i (wrap64 (s.nfiles.getD s.i 0 + 1))
          nbytes := s.nbytes.set s.i (wrap64 (s.nbytes.getD s.i 0 + e.Size)) }
      else none
    | _ => none
  | .done j =>
    match s.tasks[j]? with
    | some (.ranging []) => some { s with wg := s.wg - 1, tasks := s.tasks.eraseIdx j }
    | _ => none
  | .wake =>
    if s.active && s.closer == .waiting && s.wg == 0 then
      some { s with closer := .woken }
    else none
  | .close =>
    if s.active && s.closer == .woken then some { s with closer := .closed } else none
  | .brk =>
    if s.active && s.closer == .closed then
      some { s with active := false, i := s.i + 1 }
    else none
  | .tick =>
    if verbose && s.active then
      some { s with out := printProgress (s.nfiles.getD s.i 0) (s.nbytes.getD s.i 0) s.i s.out }
    else none

/-- One step of some goroutine. -/
def Step (K : Nat) (roots : List Node) (verbose : Bool) (s s' : State) : Prop :=
  ∃ a, exec K roots verbose a s = some s'

/-- States reached by some interleaving of the goroutines. -/
inductive Reachable (K : Nat) (roots : List Node) (verbose : Bool) : State → Prop where
  | init : Reachable K roots verbose (init roots)
  | step {s s' : State} : Reachable K roots verbose s → Step K roots verbose s s' →
      Reachable K roots verbose s'

/-- The `for` loop over `roots` is over: `GetDiskUsage` executes
`return nfiles, nbytes`. -/
def State.returned (roots : List Node) (s : State) : Bool :=
  !s.active && decide (roots.length ≤ s.i)

/-- Run a schedule given as a list of actions. -/
def runActs (K : Nat) (roots : List Node) (verbose : Bool) :
    List Act → State → Option State
  | [], s => some s
  | a :: as, s => (exec K roots verbose a s).bind (runActs K roots verbose as)

/-! ## A scheduler, and `GetDiskUsage` as a function -/

/-- Position of the first goroutine that is inside `dirents`. -/
def firstReading : List Task → Option Nat
  | [] => none
  | .reading _ :: _ => some 0
  | .start _ :: ts => (firstReading ts).map (· + 1)
  | .ranging _ :: ts => (firstReading ts).map (· + 1)

/-- A scheduler: the next action of a goroutine that is able to move.  A
goroutine inside `dirents` goes first, otherwise the oldest `walkDir`
goroutine, otherwise the closer and the main goroutine. Ticks are never
chosen. -/
def pick (roots : List Node) (s : State) : Option Act :=
  if s.active then
    match s.tasks with
    | [] =>
      match s.closer with
      | .waiting => some .wake
      | .woken => some .close
      | .closed => some .brk
    | t :: _ =>
      match firstReading s.tasks with
      | some j => some (.list j)
      | none =>
        match t with
        | .start _ => some (.acquire 0)
        | .reading _ => some (.list 0)
        | .ranging [] => some (.done 0)
        | .ranging (_ :: _) => some (.visit 0)
  else if s.i < roots.length then some .launch else none

/-- Run the scheduler for at most `n` steps. -/
def run (K : Nat) (roots : List Node) (verbose : Bool) : Nat → State → State
  | 0, s => s
  | n + 1, s =>
    match pick roots s with
    | none => s
    | some a =>
      match exec K roots verbose a s with
      | none => s
      | some s' => run K roots verbose n s'

mutual
/-- Number of steps taken by `walkDir` on a path and by the goroutines it
spawns: acquire, list, one per entry visited, done. -/
def Node.work : Node → Nat
  | .file _ _ => 3
  | .dir _ err es => if err then 3 else 3 + workEntries es
/-- Steps caused by the entries still to visit. -/
def workEntries : List Node → Nat
  | [] => 0
  | e :: es => 1 + workEntry e + workEntries es
/-- Steps of the goroutine spawned for an entry (none for a file). -/
def workEntry : Node → Nat
  | .file _ _ => 0
  | .dir _ err es => if err then 3 else 3 + workEntries es
end

/-- Steps left to a live goroutine and its future descendants. -/
def Task.work : Task → Nat
  | .start d => 3 + workEntries (direntsResult d)
  | .reading d => 2 + workEntries (direntsResult d)
  | .ranging es => 1 + workEntries es

/-- Steps left to the closer goroutine. -/
def Closer.work : Closer → Nat
  | .waiting => 2
  | .woken => 1
  | .closed => 0

/-- Number of non-tick steps left before `GetDiskUsage` returns. -/
def State.fuel (roots : List Node) (s : State) : Nat :=
  if s.active then
    (s.tasks.map Task.work).sum + s.closer.work + 1 +
      ((roots.drop (s.i + 1)).map fun r => r.work + 4).sum
  else ((roots.drop s.i).map fun r => r.work + 4).sum

/-- Function `GetDiskUsage(roots, verbose)` with a semaphore of capacity `K`
(`semaCap` in the source), its goroutines run by the scheduler `pick`:
returns `(nfiles, nbytes)`. -/
def GetDiskUsage (K : Nat) (roots : List Node) (verbose : Bool) : List Int × List Int :=
  let s := run K roots verbose ((init roots).fuel roots) (init roots)
  (s.nfiles, s.nbytes)

/-! ## Invariants of the transition system -/

/-- Sizes still to be emitted by a goroutine and by the goroutines it will
spawn. -/
def Task.pending : Task → List Int
  | .start d => d.walk
  | .reading d => d.walk
  | .ranging es => walkEntries es

/-- Tokens of `sema` held by a goroutine. -/
def Task.tokens : Task → Nat
  | .start _ => 0
  | .reading _ => 1
  | .ranging _ => 0

/-- Number of files not yet sent on the channel of the current root. -/
def pendCount (ts : List Task) : Int := (ts.map fun t => (t.pending.length : Int)).sum

/-- Bytes not yet sent on the channel of the current root. -/
def pendBytes (ts : List Task) : Int := (ts.map fun t => t.pending.sum).sum

/-- Number of files of root `j` (which is `r`) received so far. -/
def State.recvCount (s : State) (j : Nat) (r : Node) : Int :=
  if j < s.i then r.count
  else if j = s.i ∧ s.active = true then r.count - pendCount s.tasks else 0

/-- Bytes of root `j` (which is `r`) received so far. -/
def State.recvBytes (s : State) (j : Nat) (r : Node) : Int :=
  if j < s.i then r.bytes
  else if j = s.i ∧ s.active = true then r.bytes - pendBytes s.tasks else 0

/-- The invariant of `GetDiskUsage`. -/
structure Inv (K : Nat) (roots : List Node) (verbose : Bool) (s : State) : Prop where
  lenF : s.nfiles.length = roots.length
  lenB : s.nbytes.length = roots.length
  idx : s.i ≤ roots.length
  idxA : s.active = true → s.i < roots.length
  wgEq : s.wg = s.tasks.length
  heldEq : s.held = (s.tasks.map Task.tokens).sum
  heldLe : s.held ≤ K
  idle : s.active = false → s.tasks = []
  closing : s.closer ≠ .waiting → s.tasks = []
  totF : ∀ j r, roots[j]? = some r → s.nfiles[j]? = some (wrap64 (s.recvCount j r))
  totB : ∀ j r, roots[j]? = some r → s.nbytes[j]? = some (wrap64 (s.recvBytes j r))
  quiet : verbose = false → s.out = []

/-! ## Schedules, sample trees -/

/-- Number of steps of a schedule at which the `WaitGroup` counter passes from
a non-zero value to zero. -/
def zeroings (K : Nat) (roots : List Node) (verbose : Bool) : List Act → State → Nat
  | [], _ => 0
  | a :: as, s =>
    match exec K roots verbose a s with
    | none => 0
    | some s' => (if s.wg ≠ 0 ∧ s'.wg = 0 then 1 else 0) + zeroings K roots verbose as s'

/-- Transitions to zero still to come before `GetDiskUsage` returns. -/
def State.zerosLeft (roots : List Node) (s : State) : Nat :=
  if s.active then (if s.wg = 0 then 0 else 1) + (roots.length - (s.i + 1))
  else roots.length - s.i

/-- Whether a goroutine is inside `dirents`, between the acquire and the return. -/
def Task.inDirents : Task → Bool
  | .start _ => false
  | .reading _ => true
  | .ranging _ => false

/-- A small tree: three reachable files, one directory whose listing fails. -/
def sampleTree : Node :=
  .dir "a" false
    [.file "x" 3, .dir "b" false [.file "y" 4, .dir "c" true [.file "z" 100]], .file "w" 5]

/-- A directory with two sparse files of 2^62 bytes each. -/
def sparsePair : Node :=
  .dir "vm" false [.file "disk0.img" 4611686018427387904, .file "disk1.img" 4611686018427387904]

/-- Order on progress lines: two lines of the same root are non-decreasing in
both components. -/
def SnapLe (p q : Nat × Int × Int) : Prop :=
  p.1 = q.1 → p.2.1 ≤ q.2.1 ∧ p.2.2 ≤ q.2.2

/-- Invariant used when no file size is negative: what is pending is
non-negative and bounded by the totals of the current root. -/
structure Pos (roots : List Node) (s : State) : Prop where
  posP : ∀ t ∈ s.tasks, ∀ x ∈ t.pending, 0 ≤ x
  leC : ∀ r, s.active = true → roots[s.i]? = some r → pendCount s.tasks ≤ r.count
  leB : ∀ r, s.active = true → roots[s.i]? = some r → pendBytes s.tasks ≤ r.bytes

/-- The files of a root have non-negative sizes, and their number and total
size are below 2^63. -/
def Node.inRange (r : Node) : Prop :=
  (∀ x ∈ r.walk, 0 ≤ x) ∧ r.count < 9223372036854775808 ∧ r.bytes < 9223372036854775808

/-- Invariant of the progress lines printed so far: every line belongs to a
root of the call, and the lines of a root whose files are in range are bounded
by what has been received for that root and are non-decreasing. -/
structure Snap (roots : List Node) (s : State) : Prop where
  valid : ∀ p ∈ s.out, p.1 < roots.length
  le : ∀ p ∈ s.out, ∀ r, roots[p.1]? = some r → r.inRange →
    p.2.1 ≤ s.recvCount p.1 r ∧ p.2.2 ≤ s.recvBytes p.1 r
  mono : s.out.Pairwise fun p q =>
    p.1 = q.1 → ∀ r, roots[p.1]? = some r → r.inRange → p.2.1 ≤ q.2.1 ∧ p.2.2 ≤ q.2.2

/-- Roots used to exercise a scan of several trees. -/
def sampleRoots : List Node := [sampleTree, .file "f" 3, sampleTree]

/-- State in which the scan of `sampleRoots` has returned. -/
def sampleFinal : State :=
  run 2 sampleRoots true ((init sampleRoots).fuel sampleRoots) (init sampleRoots)

/-- State in the middle of the scan of `sampleRoots`, after twelve steps. -/
def sampleMid : State := run 2 sampleRoots true 12 (init sampleRoots)

/-- Two sparse files around a directory whose listing fails. -/
def sparseWithFailure : Node :=
  .dir "vm" false
    [.file "disk0.img" 4611686018427387904, .dir "lost+found" true [.file "core" 7],
      .file "disk1.img" 4611686018427387904]

/-- A schedule in which the timer fires after each of the two files of
`sparsePair` has been received. -/
def tickSchedule : List Act :=
  [.launch, .acquire 0, .list 0, .visit 0, .tick, .visit 0, .tick]

/-- A directory with twenty-one sub-directories. -/
def wideTree : Node := .dir "w" false (List.replicate 21 (.dir "d" false []))

/-- A schedule of `wideTree` in which the twenty-one goroutines spawned for the
sub-directories all enter `dirents` before any of them leaves it. -/
def wideSchedule : List Act :=
  [.launch, .acquire 0, .list 0] ++ List.replicate 21 (.visit 0) ++
    (List.range 21).map fun k => .acquire (k + 1)

/-- A directory with two small files. -/
def smallPair : Node := .dir "p" false [.file "x" 3, .file "y" 5]

/-- State of a scan of `wideTree` after the steps of `wideSchedule`. -/
def wideState : State :=
  (runActs semaCap [wideTree] false wideSchedule (init [wideTree])).getD (init [wideTree])

/-- A root that is a regular file, not a directory. -/
def fileRoot : Node := .file "notes.txt" 3

/-- The only complete schedule without ticks of a scan of `fileRoot`. -/
def fileRootSchedule : List Act :=
  [.launch, .acquire 0, .list 0, .done 0, .wake, .close, .brk]

/-- State after `fileRootSchedule`. -/
def fileRootFinal : State :=
  (runActs 1 [fileRoot] false fileRootSchedule (init [fileRoot])).getD (init [fileRoot])

/-- Two roots scanned together: a directory with two small files, then a
directory with two sparse files of 2^62 bytes each. -/
def mixedRoots : List Node := [smallPair, sparsePair]

/-- A schedule of `mixedRoots` in which the timer fires after each file of
either root. -/
def mixedSchedule : List Act :=
  tickSchedule ++ [.done 0, .wake, .close, .brk] ++ tickSchedule

/-- State of a verbose scan of `mixedRoots` after the steps of
`mixedSchedule`: two progress lines per root have been printed. -/
def mixedTicked : State :=
  (runActs 2 mixedRoots true mixedSchedule (init mixedRoots)).getD (init mixedRoots)

end DiskUsage

namespace ImageConv

/-! ## `ImageConv/imgconv.go`: flag parsing and validation of the source image -/

/-- Library call `filepath.Base(path)` on Unix: the last element of the path,
trailing slashes removed; `"."` for the empty path, `"/"` for a path of
slashes only. -/
def Base (path : String) : String :=
  if path = "" then "."
  else
    let stripped := (path.toList.reverse.dropWhile (· == '/')).reverse
    let last := (stripped.reverse.takeWhile (· != '/')).reverse
    if last = [] then "/" else String.mk last

/-- Library call `strings.Split(s, sep)` for a separator of one character. -/
def SplitChars (sep : Char) : List Char → List (List Char)
  | [] => [[]]
  | c :: cs =>
    if c = sep then [] :: SplitChars sep cs
    else
      match SplitChars sep cs with
      | [] => [[c]]
      | p :: ps => (c :: p) :: ps

/-- Call `strings.Split(s, ".")`. -/
def Split (s : String) : List String :=
  (SplitChars '.' s.toList).map String.mk

/-- Result of `parseflags()`: the slice and the error it returns; the flag
`-type` is given before lower-casing, `args` is `flag.Args()`, and `ToLower` is
the library function `strings.ToLower`. -/
def parseflags (ToLower : String → String) (typeFlag : String) (args : List String) :
    List String × Option String :=
  let sourceImages := args
  let outFileType := ToLower typeFlag
  if outFileType = "" then
    ([], some "Specify the output file format (ie. JPEG, PNG, or GIF) with the -type flag.")
  else if outFileType ≠ "jpeg" ∧ outFileType ≠ "jpg" ∧ outFileType ≠ "png" ∧
      outFileType ≠ "gif" then
    ([], some (outFileType ++ " is not one of the supported file formats: JPEG, PNG, or GIF\n"))
  else (sourceImages, none)

/-- Lower-casing of the ASCII letters, as `strings.ToLower` does on ASCII
strings. -/
def asciiLower (s : String) : String :=
  String.mk (s.toList.map fun c =>
    if 65 ≤ c.toNat ∧ c.toNat ≤ 90 then Char.ofNat (c.toNat + 32) else c)

/-- How far a call `imgconv(sImg, wg)` gets. -/
inductive Outcome where
  /-- Call `os.Open(sImg)` failed: the error is printed, nothing else is done. -/
  | openFailed
  /-- Run-time panic at `nameAndForm[1]`: index out of range. -/
  | indexOutOfRange
  /-- The format is reported as unsupported; no output file is created. -/
  | unsupported (format : String)
  /-- The function goes on to `os.Create(outFileName)`. -/
  | create (outFileName : String)
  deriving DecidableEq

/-- Suffix chosen by `switch *outFileType`. -/
def outSuffix (outFileType : String) : String :=
  if outFileType = "jpeg" ∨ outFileType = "jpg" then ".jpg"
  else if outFileType = "png" then ".png"
  else if outFileType = "gif" then ".gif"
  else ""

/-- Function `imgconv(sImg, wg)` up to the creation of the output file.
`openOk` tells whether `os.Open(sImg)` succeeds, `outFileType` and
`destFilePath` are the flag values, `Dir` is the library function
`filepath.Dir`. -/
def imgconv (Dir : String → String) (outFileType destFilePath : String) (openOk : Bool)
    (sImg : String) : Outcome :=
  if !openOk then .openFailed
  else
    match Split (Base sImg) with
    | name :: format :: _ =>
      if format ≠ "jpeg" ∧ format ≠ "jpg" ∧ format ≠ "png" ∧ format ≠ "gif" then
        .unsupported format
      else
        let dest := if destFilePath ≠ "" then Dir (destFilePath ++ "/") ++ "/" else destFilePath
        .create (dest ++ name ++ outSuffix outFileType)
    | _ => .indexOutOfRange

/-- The file-name extension of a base name: what follows its last `'.'`, if
there is one. -/
def extension (base : String) : Option String :=
  if base.toList.contains '.' then
    some (String.mk (base.toList.reverse.takeWhile (· != '.')).reverse)
  else none

end ImageConv

namespace DiskUsage

/-! ## Arithmetic and list lemmas -/

theorem wrap64_add_left (a b : Int) : wrap64 (wrap64 a + b) = wrap64 (a + b) := by
  unfold wrap64; omega

theorem wrap64_of_range (x : Int) (h1 : -9223372036854775808 ≤ x) (h2 : x < 9223372036854775808) :
    wrap64 x = x := by
  unfold wrap64; omega

theorem sum_map_set {M : Type} [AddCommMonoid M] (f : Task → M) :
    ∀ (ts : List Task) (j : Nat) (t t' : Task), ts[j]? = some t →
      ((ts.set j t').map f).sum + f t = (ts.map f).sum + f t'
  | [], j, t, t', h => by simp at h
  | x :: ts, 0, t, t', h => by
    simp at h; subst h
    simp [List.set, add_comm, add_left_comm]
  | x :: ts, j + 1, t, t', h => by
    simp at h
    have ih := sum_map_set f ts j t t' h
    show (f x + ((ts.set j t').map f).sum) + f t = (f x + (ts.map f).sum) + f t'
    rw [add_assoc, ih, add_assoc]

theorem sum_map_eraseIdx {M : Type} [AddCommMonoid M] (f : Task → M) :
    ∀ (ts : List Task) (j : Nat) (t : Task), ts[j]? = some t →
      ((ts.eraseIdx j).map f).sum + f t = (ts.map f).sum
  | [], j, t, h => by simp at h
  | x :: ts, 0, t, h => by
    simp at h; subst h
    simp [List.eraseIdx, add_comm]
  | x :: ts, j + 1, t, h => by
    simp at h
    have ih := sum_map_eraseIdx f ts j t h
    show (f x + ((ts.eraseIdx j).map f).sum) + f t = f x + (ts.map f).sum
    rw [add_assoc, ih]

theorem walk_eq (d : Node) : d.walk = walkEntries (direntsResult d) := by
  cases d with
  | file n sz => simp [Node.walk, direntsResult, ReadDir, walkEntries]
  | dir n err es => cases err <;> simp [Node.walk, direntsResult, ReadDir, walkEntries]

theorem walkEntry_eq (e : Node) : walkEntry e = if e.IsDir then e.walk else [e.Size] := by
  cases e with
  | file n sz => simp [walkEntry, Node.IsDir, Node.Size]
  | dir n err es => simp [walkEntry, Node.IsDir, Node.walk]


theorem wrap64_zero : wrap64 0 = 0 := by decide

theorem inv_init (K : Nat) (roots : List Node) (verbose : Bool) :
    Inv K roots verbose (init roots) := by
  refine ⟨by simp [init], by simp [init], by simp [init], by simp [init], by simp [init],
    by simp [init], by simp [init], by simp [init], by simp [init], ?_, ?_, by simp [init]⟩
  · intro j r h
    have hj : j < roots.length := (List.getElem?_eq_some_iff.mp h).1
    simp [init, State.recvCount, wrap64_zero, List.getElem?_replicate, hj]
  · intro j r h
    have hj : j < roots.length := (List.getElem?_eq_some_iff.mp h).1
    simp [init, State.recvBytes, wrap64_zero, List.getElem?_replicate, hj]


theorem pendCount_set (ts : List Task) (j : Nat) (t t' : Task) (h : ts[j]? = some t) :
    pendCount (ts.set j t') = pendCount ts - t.pending.length + t'.pending.length := by
  have := sum_map_set (fun t => (t.pending.length : Int)) ts j t t' h
  simp only [pendCount]; dsimp only at this; omega

theorem pendBytes_set (ts : List Task) (j : Nat) (t t' : Task) (h : ts[j]? = some t) :
    pendBytes (ts.set j t') = pendBytes ts - t.pending.sum + t'.pending.sum := by
  have := sum_map_set (fun t => t.pending.sum) ts j t t' h
  simp only [pendBytes]; dsimp only at this; omega

theorem tokens_set (ts : List Task) (j : Nat) (t t' : Task) (h : ts[j]? = some t) :
    ((ts.set j t').map Task.tokens).sum + t.tokens = (ts.map Task.tokens).sum + t'.tokens :=
  sum_map_set Task.tokens ts j t t' h

theorem ne_nil_of_getElem? (ts : List Task) (j : Nat) (t : Task) (h : ts[j]? = some t) :
    ts ≠ [] := by
  intro h0; subst h0; simp at h

theorem pendCount_append (a b : List Task) : pendCount (a ++ b) = pendCount a + pendCount b := by
  simp [pendCount]

theorem pendBytes_append (a b : List Task) : pendBytes (a ++ b) = pendBytes a + pendBytes b := by
  simp [pendBytes]

theorem pendCount_eraseIdx (ts : List Task) (j : Nat) (t : Task) (h : ts[j]? = some t) :
    pendCount (ts.eraseIdx j) = pendCount ts - t.pending.length := by
  have := sum_map_eraseIdx (fun t => (t.pending.length : Int)) ts j t h
  simp only [pendCount]; dsimp only at this; omega

theorem pendBytes_eraseIdx (ts : List Task) (j : Nat) (t : Task) (h : ts[j]? = some t) :
    pendBytes (ts.eraseIdx j) = pendBytes ts - t.pending.sum := by
  have := sum_map_eraseIdx (fun t => t.pending.sum) ts j t h
  simp only [pendBytes]; dsimp only at this; omega

theorem Inv.active_of_task {K : Nat} {roots : List Node} {verbose : Bool} {s : State}
    (hI : Inv K roots verbose s) {j : Nat} {t : Task} (h : s.tasks[j]? = some t) :
    s.active = true := by
  cases ha : s.active with
  | true => rfl
  | false => exact absurd (hI.idle ha) (ne_nil_of_getElem? _ _ _ h)

theorem Inv.waiting_of_task {K : Nat} {roots : List Node} {verbose : Bool} {s : State}
    (hI : Inv K roots verbose s) {j : Nat} {t : Task} (h : s.tasks[j]? = some t) :
    s.closer = .waiting := by
  by_contra hc
  exact absurd (hI.closing hc) (ne_nil_of_getElem? _ _ _ h)

/-- A step of a `walkDir` goroutine that sends nothing keeps the invariant. -/
theorem Inv.of_silent {K : Nat} {roots : List Node} {verbose : Bool} {s s' : State}
    (hI : Inv K roots verbose s) (ha : s.active = true) (hw : s.closer = .waiting)
    (h1 : s'.i = s.i) (h2 : s'.active = s.active) (h3 : s'.nfiles = s.nfiles)
    (h4 : s'.nbytes = s.nbytes) (h5 : s'.out = s.out) (h6 : s'.closer = s.closer)
    (h7 : s'.wg = s'.tasks.length) (h8 : s'.held = (s'.tasks.map Task.tokens).sum)
    (h9 : s'.held ≤ K) (h10 : pendCount s'.tasks = pendCount s.tasks)
    (h11 : pendBytes s'.tasks = pendBytes s.tasks) : Inv K roots verbose s' := by
  refine ⟨h3 ▸ hI.lenF, h4 ▸ hI.lenB, h1 ▸ hI.idx, ?_, h7, h8, h9, ?_, ?_, ?_, ?_, ?_⟩
  · intro _; rw [h1]; exact hI.idxA ha
  · intro h; rw [h2, ha] at h; cases h
  · intro h; rw [h6, hw] at h; exact absurd rfl h
  · intro j r hr
    have := hI.totF j r hr
    simp only [State.recvCount, h1, h2, h3, h10] at this ⊢
    exact this
  · intro j r hr
    have := hI.totB j r hr
    simp only [State.recvBytes, h1, h2, h4, h11] at this ⊢
    exact this
  · intro h; rw [h5]; exact hI.quiet h

theorem inv_acquire {K : Nat} {roots : List Node} {verbose : Bool} {s s' : State} {j : Nat}
    (hI : Inv K roots verbose s) (h : exec K roots verbose (.acquire j) s = some s') :
    Inv K roots verbose s' := by
  simp only [exec] at h
  split at h
  · rename_i d hd
    simp only [semaAcquire] at h
    split at h
    · rename_i hK
      simp at h
      subst h
      have hc := pendCount_set s.tasks j _ (.reading d) hd
      have hb := pendBytes_set s.tasks j _ (.reading d) hd
      have ht := tokens_set s.tasks j _ (.reading d) hd
      simp only [Task.pending, Task.tokens] at hc hb ht
      refine hI.of_silent (hI.active_of_task hd) (hI.waiting_of_task hd) rfl rfl rfl rfl rfl rfl
        ?_ ?_ ?_ ?_ ?_
      · simpa using hI.wgEq
      · have := hI.heldEq; simp only at ht ⊢; omega
      · simp only; omega
      · simp only; omega
      · simp only; omega
    · simp at h
  · simp at h

theorem inv_list {K : Nat} {roots : List Node} {verbose : Bool} {s s' : State} {j : Nat}
    (hI : Inv K roots verbose s) (h : exec K roots verbose (.list j) s = some s') :
    Inv K roots verbose s' := by
  simp only [exec] at h
  split at h
  · rename_i d hd
    simp only [semaRelease] at h
    split at h
    · rename_i hK
      simp at h
      subst h
      have hc := pendCount_set s.tasks j _ (.ranging (direntsResult d)) hd
      have hb := pendBytes_set s.tasks j _ (.ranging (direntsResult d)) hd
      have ht := tokens_set s.tasks j _ (.ranging (direntsResult d)) hd
      simp only [Task.pending, Task.tokens, walk_eq d] at hc hb ht
      refine hI.of_silent (hI.active_of_task hd) (hI.waiting_of_task hd) rfl rfl rfl rfl rfl rfl
        ?_ ?_ ?_ ?_ ?_
      · simpa using hI.wgEq
      · have := hI.heldEq; simp only at ht ⊢; omega
      · have := hI.heldLe; simp only; omega
      · simp only; omega
      · simp only; omega
    · simp at h
  · simp at h

theorem inv_done {K : Nat} {roots : List Node} {verbose : Bool} {s s' : State} {j : Nat}
    (hI : Inv K roots verbose s) (h : exec K roots verbose (.done j) s = some s') :
    Inv K roots verbose s' := by
  simp only [exec] at h
  split at h
  · rename_i hd
    simp at h
    subst h
    have hc := pendCount_eraseIdx s.tasks j _ hd
    have hb := pendBytes_eraseIdx s.tasks j _ hd
    have ht := sum_map_eraseIdx Task.tokens s.tasks j _ hd
    have hl : j < s.tasks.length := (List.getElem?_eq_some_iff.mp hd).1
    simp only [Task.pending, Task.tokens, walkEntries] at hc hb ht
    refine hI.of_silent (hI.active_of_task hd) (hI.waiting_of_task hd) rfl rfl rfl rfl rfl rfl
      ?_ ?_ ?_ ?_ ?_
    · have := hI.wgEq
      simp only [List.length_eraseIdx, hl, if_true]
      rw [this]; omega
    · have := hI.heldEq; simp only at ht ⊢; omega
    · exact hI.heldLe
    · simpa using hc
    · simpa using hb
  · simp at h


theorem inv_visit {K : Nat} {roots : List Node} {verbose : Bool} {s s' : State} {j : Nat}
    (hI : Inv K roots verbose s) (h : exec K roots verbose (.visit j) s = some s') :
    Inv K roots verbose s' := by
  simp only [exec] at h
  split at h
  · rename_i e es hd
    have hact := hI.active_of_task hd
    have hwait := hI.waiting_of_task hd
    have hc := pendCount_set s.tasks j _ (.ranging es) hd
    have hb := pendBytes_set s.tasks j _ (.ranging es) hd
    have ht := tokens_set s.tasks j _ (.ranging es) hd
    simp only [Task.pending, Task.tokens, walkEntries, walkEntry_eq e] at hc hb ht
    split at h
    · rename_i hdir
      simp at h
      subst h
      simp only [hdir, if_true, List.length_append, List.sum_append, Nat.cast_add] at hc hb
      refine hI.of_silent hact hwait rfl rfl rfl rfl rfl rfl ?_ ?_ ?_ ?_ ?_
      · have := hI.wgEq; simp; omega
      · have := hI.heldEq
        simp only [List.map_append, List.sum_append, List.map_cons, List.map_nil, List.sum_cons,
          List.sum_nil, Task.tokens]
        omega
      · exact hI.heldLe
      · have h1 : pendCount [Task.start e] = e.walk.length := by simp [pendCount, Task.pending]
        simp only [pendCount_append, hc, h1]; omega
      · have h1 : pendBytes [Task.start e] = e.walk.sum := by simp [pendBytes, Task.pending]
        simp only [pendBytes_append, hb, h1]; omega
    · rename_i hdir
      split at h
      · simp at h
        subst h
        simp only [hdir, Bool.false_eq_true, if_false, List.length_singleton, List.sum_singleton,
          Nat.cast_one, List.length_append, List.sum_append, Nat.cast_add] at hc hb
        have hi := hI.idxA hact
        obtain ⟨r0, hr0⟩ : ∃ r0, roots[s.i]? = some r0 :=
          ⟨roots[s.i], List.getElem?_eq_getElem hi⟩
        have hF := hI.totF _ _ hr0
        have hB := hI.totB _ _ hr0
        refine ⟨by simpa using hI.lenF, by simpa using hI.lenB, hI.idx, hI.idxA, ?_, ?_,
          hI.heldLe, ?_, ?_, ?_, ?_, hI.quiet⟩
        · simpa using hI.wgEq
        · have := hI.heldEq; simp only at ht ⊢; omega
        · intro h0; rw [hact] at h0; cases h0
        · intro h0; exact absurd hwait h0
        · intro j' r hr
          by_cases hj : j' = s.i
          · subst hj
            have hlt : s.i < s.nfiles.length := by rw [hI.lenF]; exact hi
            rw [hr0] at hr; cases hr
            simp only [State.recvCount, hact, lt_irrefl, if_false, and_self, if_true] at hF ⊢
            rw [List.getElem?_set_self hlt, hF, Option.getD_some, wrap64_add_left, hc]
            congr 2; omega
          · have := hI.totF j' r hr
            simp only [State.recvCount, hj, false_and, if_false] at this ⊢
            rw [List.getElem?_set_ne (Ne.symm hj)]
            exact this
        · intro j' r hr
          by_cases hj : j' = s.i
          · subst hj
            have hlt : s.i < s.nbytes.length := by rw [hI.lenB]; exact hi
            rw [hr0] at hr; cases hr
            simp only [State.recvBytes, hact, lt_irrefl, if_false, and_self, if_true] at hB ⊢
            rw [List.getElem?_set_self hlt, hB, Option.getD_some, wrap64_add_left, hb]
            congr 2; omega
          · have := hI.totB j' r hr
            simp only [State.recvBytes, hj, false_and, if_false] at this ⊢
            rw [List.getElem?_set_ne (Ne.symm hj)]
            exact this
      · simp at h
  · simp at h


theorem inv_launch {K : Nat} {roots : List Node} {verbose : Bool} {s s' : State}
    (hI : Inv K roots verbose s) (h : exec K roots verbose .launch s = some s') :
    Inv K roots verbose s' := by
  simp only [exec] at h
  split at h
  · simp at h
  · rename_i hact
    split at h
    · simp at h
    · rename_i r hr
      simp at h
      subst h
      have hact : s.active = false := by simpa using hact
      have hi : s.i < roots.length := (List.getElem?_eq_some_iff.mp hr).1
      have ht := hI.idle hact
      refine ⟨hI.lenF, hI.lenB, hI.idx, fun _ => hi, by simp, ?_, hI.heldLe, by simp, by simp,
        ?_, ?_, hI.quiet⟩
      · have := hI.heldEq; rw [ht] at this; simpa [Task.tokens] using this
      · intro j r' hr'
        have := hI.totF j r' hr'
        simp only [State.recvCount, hact, Bool.false_eq_true, and_false, if_false] at this
        simp only [State.recvCount, and_true]
        rw [this]
        by_cases hj : j = s.i
        · subst hj
          rw [hr] at hr'; cases hr'
          simp [pendCount, Task.pending, Node.count]
        · simp [hj]
      · intro j r' hr'
        have := hI.totB j r' hr'
        simp only [State.recvBytes, hact, Bool.false_eq_true, and_false, if_false] at this
        simp only [State.recvBytes, and_true]
        rw [this]
        by_cases hj : j = s.i
        · subst hj
          rw [hr] at hr'; cases hr'
          simp [pendBytes, Task.pending, Node.bytes]
        · simp [hj]

theorem inv_wake {K : Nat} {roots : List Node} {verbose : Bool} {s s' : State}
    (hI : Inv K roots verbose s) (h : exec K roots verbose .wake s = some s') :
    Inv K roots verbose s' := by
  simp only [exec] at h
  split at h
  · rename_i hg
    simp at h hg
    subst h
    have ht : s.tasks = [] := by
      have := hI.wgEq
      rw [hg.2] at this
      exact List.length_eq_zero.mp (by omega)
    exact ⟨hI.lenF, hI.lenB, hI.idx, hI.idxA, hI.wgEq, hI.heldEq, hI.heldLe, hI.idle,
      fun _ => ht, hI.totF, hI.totB, hI.quiet⟩
  · simp at h

theorem inv_close {K : Nat} {roots : List Node} {verbose : Bool} {s s' : State}
    (hI : Inv K roots verbose s) (h : exec K roots verbose .close s = some s') :
    Inv K roots verbose s' := by
  simp only [exec] at h
  split at h
  · rename_i hg
    simp at h hg
    subst h
    have ht : s.tasks = [] := hI.closing (by rw [hg.2]; decide)
    exact ⟨hI.lenF, hI.lenB, hI.idx, hI.idxA, hI.wgEq, hI.heldEq, hI.heldLe, hI.idle,
      fun _ => ht, hI.totF, hI.totB, hI.quiet⟩
  · simp at h

theorem inv_brk {K : Nat} {roots : List Node} {verbose : Bool} {s s' : State}
    (hI : Inv K roots verbose s) (h : exec K roots verbose .brk s = some s') :
    Inv K roots verbose s' := by
  simp only [exec] at h
  split at h
  · rename_i hg
    simp at h hg
    subst h
    have ht : s.tasks = [] := hI.closing (by rw [hg.2]; decide)
    have hi := hI.idxA hg.1
    refine ⟨hI.lenF, hI.lenB, hi, by simp, hI.wgEq, hI.heldEq, hI.heldLe, fun _ => ht,
      fun _ => ht, ?_, ?_, hI.quiet⟩
    · intro j r hr
      have := hI.totF j r hr
      simp only [State.recvCount, hg.1, and_true, ht] at this
      simp only [State.recvCount, Bool.false_eq_true, and_false, if_false]
      rw [this]
      by_cases h1 : j < s.i
      · simp [h1, Nat.lt_succ_of_lt h1]
      · by_cases h2 : j = s.i
        · simp [h2, pendCount]
        · have h3 : ¬ j < s.i + 1 := by omega
          simp [h1, h2, h3]
    · intro j r hr
      have := hI.totB j r hr
      simp only [State.recvBytes, hg.1, and_true, ht] at this
      simp only [State.recvBytes, Bool.false_eq_true, and_false, if_false]
      rw [this]
      by_cases h1 : j < s.i
      · simp [h1, Nat.lt_succ_of_lt h1]
      · by_cases h2 : j = s.i
        · simp [h2, pendBytes]
        · have h3 : ¬ j < s.i + 1 := by omega
          simp [h1, h2, h3]
  · simp at h

theorem inv_tick {K : Nat} {roots : List Node} {verbose : Bool} {s s' : State}
    (hI : Inv K roots verbose s) (h : exec K roots verbose .tick s = some s') :
    Inv K roots verbose s' := by
  simp only [exec] at h
  split at h
  · rename_i hg
    simp at h hg
    subst h
    refine ⟨hI.lenF, hI.lenB, hI.idx, hI.idxA, hI.wgEq, hI.heldEq, hI.heldLe, hI.idle,
      hI.closing, hI.totF, hI.totB, ?_⟩
    intro hv; rw [hg.1] at hv; cases hv
  · simp at h

/-- Every step keeps the invariant. -/
theorem inv_step {K : Nat} {roots : List Node} {verbose : Bool} {s s' : State}
    (hI : Inv K roots verbose s) (h : Step K roots verbose s s') : Inv K roots verbose s' := by
  obtain ⟨a, ha⟩ := h
  cases a with
  | launch => exact inv_launch hI ha
  | acquire j => exact inv_acquire hI ha
  | list j => exact inv_list hI ha
  | visit j => exact inv_visit hI ha
  | done j => exact inv_done hI ha
  | wake => exact inv_wake hI ha
  | close => exact inv_close hI ha
  | brk => exact inv_brk hI ha
  | tick => exact inv_tick hI ha

/-- The invariant holds in every reachable state. -/
theorem Reachable.inv {K : Nat} {roots : List Node} {verbose : Bool} {s : State}
    (h : Reachable K roots verbose s) : Inv K roots verbose s := by
  induction h with
  | init => exact inv_init K roots verbose
  | step _ hs ih => exact inv_step ih hs


/-! ## Termination: every step but a tick uses up one unit of fuel -/

theorem work_eq (d : Node) : d.work = 3 + workEntries (direntsResult d) := by
  cases d with
  | file n sz => simp [Node.work, direntsResult, ReadDir, workEntries]
  | dir n err es => cases err <;> simp [Node.work, direntsResult, ReadDir, workEntries]

theorem workEntry_eq (e : Node) : workEntry e = if e.IsDir then e.work else 0 := by
  cases e with
  | file n sz => simp [workEntry, Node.IsDir]
  | dir n err es => simp [workEntry, Node.IsDir, Node.work]

theorem fuel_drop (roots : List Node) (i : Nat) (r : Node) (h : roots[i]? = some r) :
    ((roots.drop i).map fun r => r.work + 4).sum =
      r.work + 4 + ((roots.drop (i + 1)).map fun r => r.work + 4).sum := by
  obtain ⟨hi, hr⟩ := List.getElem?_eq_some_iff.mp h
  rw [List.drop_eq_getElem_cons hi, hr]
  simp

/-- Every action other than a tick takes exactly one unit of fuel. -/
theorem exec_fuel {K : Nat} {roots : List Node} {verbose : Bool} {s s' : State} {a : Act}
    (hI : Inv K roots verbose s) (h : exec K roots verbose a s = some s') (hne : a ≠ .tick) :
    s'.fuel roots + 1 = s.fuel roots := by
  cases a with
  | tick => exact absurd rfl hne
  | launch =>
    simp only [exec] at h
    split at h
    · simp at h
    · rename_i hact
      split at h
      · simp at h
      · rename_i r hr
        simp at h; subst h
        have hact : s.active = false := by simpa using hact
        simp only [State.fuel, hact, Bool.false_eq_true, if_false, if_true]
        rw [fuel_drop roots s.i r hr, work_eq r]
        simp [Task.work, Closer.work]
        omega
  | acquire j =>
    simp only [exec] at h
    split at h
    · rename_i d hd
      simp only [semaAcquire] at h
      split at h
      · simp at h; subst h
        have hw := sum_map_set Task.work s.tasks j _ (.reading d) hd
        simp only [State.fuel, hI.active_of_task hd, if_true, Task.work] at hw ⊢
        omega
      · simp at h
    · simp at h
  | list j =>
    simp only [exec] at h
    split at h
    · rename_i d hd
      simp only [semaRelease] at h
      split at h
      · simp at h; subst h
        have hw := sum_map_set Task.work s.tasks j _ (.ranging (direntsResult d)) hd
        simp only [State.fuel, hI.active_of_task hd, if_true, Task.work] at hw ⊢
        omega
      · simp at h
    · simp at h
  | visit j =>
    simp only [exec] at h
    split at h
    · rename_i e es hd
      have hw := sum_map_set Task.work s.tasks j _ (.ranging es) hd
      simp only [Task.work, workEntries, workEntry_eq e] at hw
      split at h
      · rename_i hdir
        simp at h; subst h
        simp only [hdir, if_true, work_eq e] at hw
        simp only [State.fuel, hI.active_of_task hd, if_true, List.map_append, List.sum_append,
          List.map_cons, List.map_nil, List.sum_cons, List.sum_nil, Task.work]
        omega
      · rename_i hdir
        split at h
        · simp at h; subst h
          simp only [hdir, Bool.false_eq_true, if_false] at hw
          simp only [State.fuel, hI.active_of_task hd, if_true]
          omega
        · simp at h
    · simp at h
  | done j =>
    simp only [exec] at h
    split at h
    · rename_i hd
      simp at h; subst h
      have hw := sum_map_eraseIdx Task.work s.tasks j _ hd
      simp only [Task.work, workEntries] at hw
      simp only [State.fuel, hI.active_of_task hd, if_true]
      omega
    · simp at h
  | wake =>
    simp only [exec] at h
    split at h
    · rename_i hg
      simp at h hg; subst h
      simp only [State.fuel, hg.1.1, if_true, hg.1.2, Closer.work]
      omega
    · simp at h
  | close =>
    simp only [exec] at h
    split at h
    · rename_i hg
      simp at h hg; subst h
      simp only [State.fuel, hg.1, if_true, hg.2, Closer.work]
      omega
    · simp at h
  | brk =>
    simp only [exec] at h
    split at h
    · rename_i hg
      simp at h hg; subst h
      have ht : s.tasks = [] := hI.closing (by rw [hg.2]; decide)
      simp [State.fuel, hg.1, hg.2, Closer.work, ht]
      omega
    · simp at h


/-! ## No deadlock: the scheduler always finds a goroutine able to move -/

theorem firstReading_some : ∀ (ts : List Task) (j : Nat), firstReading ts = some j →
    ∃ d, ts[j]? = some (.reading d)
  | [], j, h => by simp [firstReading] at h
  | .reading d :: ts, j, h => by
    simp [firstReading] at h; subst h; exact ⟨d, by simp⟩
  | .start _ :: ts, j, h => by
    simp [firstReading] at h
    obtain ⟨k, hk, rfl⟩ := h
    simpa using firstReading_some ts k hk
  | .ranging _ :: ts, j, h => by
    simp [firstReading] at h
    obtain ⟨k, hk, rfl⟩ := h
    simpa using firstReading_some ts k hk

theorem firstReading_none : ∀ (ts : List Task), firstReading ts = none →
    (ts.map Task.tokens).sum = 0
  | [], _ => by simp
  | .reading d :: ts, h => by simp [firstReading] at h
  | .start _ :: ts, h => by
    simp [firstReading] at h
    simpa [Task.tokens] using firstReading_none ts h
  | .ranging _ :: ts, h => by
    simp [firstReading] at h
    simpa [Task.tokens] using firstReading_none ts h

/-- In a state from which `GetDiskUsage` has not returned, the scheduler picks an
action that is not a tick and that is enabled. -/
theorem pick_enabled {K : Nat} {roots : List Node} {verbose : Bool} {s : State}
    (hI : Inv K roots verbose s) (hK : 0 < K) (hr : s.returned roots = false) :
    ∃ a, pick roots s = some a ∧ a ≠ .tick ∧ (exec K roots verbose a s).isSome = true := by
  cases hact : s.active with
  | false =>
    have hi : s.i < roots.length := by
      simp [State.returned, hact] at hr; exact hr
    refine ⟨.launch, by simp [pick, hact, hi], by simp, ?_⟩
    simp [exec, hact, List.getElem?_eq_getElem hi]
  | true =>
    cases hts : s.tasks with
    | nil =>
      have hwg : s.wg = 0 := by have := hI.wgEq; rw [hts] at this; simpa using this
      cases hc : s.closer with
      | waiting =>
        exact ⟨.wake, by simp [pick, hact, hts, hc], by simp, by simp [exec, hact, hc, hwg]⟩
      | woken =>
        exact ⟨.close, by simp [pick, hact, hts, hc], by simp, by simp [exec, hact, hc]⟩
      | closed =>
        exact ⟨.brk, by simp [pick, hact, hts, hc], by simp, by simp [exec, hact, hc]⟩
    | cons t ts =>
      have h0 : s.tasks[0]? = some t := by rw [hts]; simp
      have hw := hI.waiting_of_task h0
      cases hf : firstReading s.tasks with
      | some j =>
        obtain ⟨d, hd⟩ := firstReading_some _ _ hf
        have hpos : 0 < s.held := by
          have := sum_map_eraseIdx Task.tokens s.tasks j _ hd
          have h2 := hI.heldEq
          simp only [Task.tokens] at this
          omega
        rw [hts] at hf
        refine ⟨.list j, by simp [pick, hact, hts, hf], by simp, ?_⟩
        simp [exec, hd, semaRelease, hpos]
      | none =>
        have hz : s.held = 0 := by rw [hI.heldEq]; exact firstReading_none _ hf
        have hlt : s.held < K := by omega
        rw [hts] at hf
        cases t with
        | start d =>
          refine ⟨.acquire 0, by simp [pick, hact, hts, hf], by simp, ?_⟩
          simp [exec, h0, semaAcquire, hlt]
        | reading d => simp [firstReading] at hf
        | ranging es =>
          cases es with
          | nil =>
            refine ⟨.done 0, by simp [pick, hact, hts, hf], by simp, ?_⟩
            simp [exec, h0]
          | cons e es =>
            refine ⟨.visit 0, by simp [pick, hact, hts, hf], by simp, ?_⟩
            simp only [exec, h0]
            cases hd : e.IsDir with
            | true => simp
            | false => simp [hact, hw]

theorem pick_returned {roots : List Node} {s : State} (hr : s.returned roots = true) :
    pick roots s = none := by
  simp [State.returned] at hr
  simp [pick, hr.1]
  omega

theorem fuel_returned {K : Nat} {roots : List Node} {verbose : Bool} {s : State}
    (hI : Inv K roots verbose s) (hK : 0 < K) (h : s.fuel roots = 0) :
    s.returned roots = true := by
  by_contra hr
  have hr : s.returned roots = false := by simpa using hr
  obtain ⟨a, _, hne, he⟩ := pick_enabled hI hK hr
  obtain ⟨s', he⟩ := Option.isSome_iff_exists.mp he
  have := exec_fuel hI he hne
  omega

/-- With enough fuel the scheduler drives any reachable state to a state in
which `GetDiskUsage` has returned. -/
theorem run_returned {K : Nat} {roots : List Node} {verbose : Bool} (hK : 0 < K) :
    ∀ (n : Nat) (s : State), Reachable K roots verbose s → s.fuel roots ≤ n →
      Reachable K roots verbose (run K roots verbose n s) ∧
      (run K roots verbose n s).returned roots = true
  | 0, s, hR, hn => by
    simp only [run]
    exact ⟨hR, fuel_returned hR.inv hK (by omega)⟩
  | n + 1, s, hR, hn => by
    cases hr : s.returned roots with
    | true =>
      simp only [run, pick_returned hr]
      exact ⟨hR, hr⟩
    | false =>
      obtain ⟨a, hp, hne, he⟩ := pick_enabled hR.inv hK hr
      obtain ⟨s', he⟩ := Option.isSome_iff_exists.mp he
      have hf := exec_fuel hR.inv he hne
      simp only [run, hp, he]
      exact run_returned hK n s' (hR.step ⟨a, he⟩) (by omega)

/-! ## What each action does -/

theorem exec_launch {K : Nat} {roots : List Node} {verbose : Bool} {s s' : State}
    (h : exec K roots verbose .launch s = some s') :
    s.active = false ∧ ∃ r, roots[s.i]? = some r ∧
      s' = { s with active := true, tasks := [.start r], wg := 1, closer := .waiting } := by
  simp only [exec] at h
  split at h
  · simp at h
  · rename_i hact
    split at h
    · simp at h
    · rename_i r hr
      simp at h
      exact ⟨by simpa using hact, r, hr, h.symm⟩

theorem exec_acquire {K : Nat} {roots : List Node} {verbose : Bool} {s s' : State} {j : Nat}
    (h : exec K roots verbose (.acquire j) s = some s') :
    ∃ d, s.tasks[j]? = some (.start d) ∧ s.held < K ∧
      s' = { s with tasks := s.tasks.set j (.reading d), held := s.held + 1 } := by
  simp only [exec] at h
  split at h
  · rename_i d hd
    simp only [semaAcquire] at h
    split at h
    · rename_i hK
      simp at h
      exact ⟨d, hd, hK, h.symm⟩
    · simp at h
  · simp at h

theorem exec_list {K : Nat} {roots : List Node} {verbose : Bool} {s s' : State} {j : Nat}
    (h : exec K roots verbose (.list j) s = some s') :
    ∃ d, s.tasks[j]? = some (.reading d) ∧ 0 < s.held ∧
      s' = { s with tasks := s.tasks.set j (.ranging (direntsResult d)), held := s.held - 1 } := by
  simp only [exec] at h
  split at h
  · rename_i d hd
    simp only [semaRelease] at h
    split at h
    · rename_i hK
      simp at h
      exact ⟨d, hd, hK, h.symm⟩
    · simp at h
  · simp at h

theorem exec_visit {K : Nat} {roots : List Node} {verbose : Bool} {s s' : State} {j : Nat}
    (h : exec K roots verbose (.visit j) s = some s') :
    ∃ e es, s.tasks[j]? = some (.ranging (e :: es)) ∧
      ((e.IsDir = true ∧
          s' = { s with wg := s.wg + 1, tasks := s.tasks.set j (.ranging es) ++ [.start e] }) ∨
        (e.IsDir = false ∧ s.active = true ∧ s.closer ≠ .closed ∧
          s' = { s with
            tasks := s.tasks.set j (.ranging es)
            nfiles := s.nfiles.set s.i (wrap64 (s.nfiles.getD s.i 0 + 1))
            nbytes := s.nbytes.set s.i (wrap64 (s.nbytes.getD s.i 0 + e.Size)) })) := by
  simp only [exec] at h
  split at h
  · rename_i e es hd
    refine ⟨e, es, hd, ?_⟩
    split at h
    · rename_i hdir
      left
      exact ⟨hdir, (Option.some.inj h).symm⟩
    · rename_i hdir
      split at h
      · rename_i hg
        right
        simp only [Bool.and_eq_true, bne_iff_ne, ne_eq] at hg
        exact ⟨by simpa using hdir, hg.1, hg.2, (Option.some.inj h).symm⟩
      · simp at h
  · simp at h

theorem exec_done {K : Nat} {roots : List Node} {verbose : Bool} {s s' : State} {j : Nat}
    (h : exec K roots verbose (.done j) s = some s') :
    s.tasks[j]? = some (.ranging []) ∧
      s' = { s with wg := s.wg - 1, tasks := s.tasks.eraseIdx j } := by
  simp only [exec] at h
  split at h
  · rename_i hd
    exact ⟨hd, (Option.some.inj h).symm⟩
  · simp at h

theorem exec_wake {K : Nat} {roots : List Node} {verbose : Bool} {s s' : State}
    (h : exec K roots verbose .wake s = some s') :
    s.active = true ∧ s.closer = .waiting ∧ s.wg = 0 ∧ s' = { s with closer := .woken } := by
  simp only [exec] at h
  split at h
  · rename_i hg
    simp at hg
    exact ⟨hg.1.1, hg.1.2, hg.2, (Option.some.inj h).symm⟩
  · simp at h

theorem exec_close {K : Nat} {roots : List Node} {verbose : Bool} {s s' : State}
    (h : exec K roots verbose .close s = some s') :
    s.active = true ∧ s.closer = .woken ∧ s' = { s with closer := .closed } := by
  simp only [exec] at h
  split at h
  · rename_i hg
    simp at hg
    exact ⟨hg.1, hg.2, (Option.some.inj h).symm⟩
  · simp at h

theorem exec_brk {K : Nat} {roots : List Node} {verbose : Bool} {s s' : State}
    (h : exec K roots verbose .brk s = some s') :
    s.active = true ∧ s.closer = .closed ∧ s' = { s with active := false, i := s.i + 1 } := by
  simp only [exec] at h
  split at h
  · rename_i hg
    simp at hg
    exact ⟨hg.1, hg.2, (Option.some.inj h).symm⟩
  · simp at h

theorem exec_tick {K : Nat} {roots : List Node} {verbose : Bool} {s s' : State}
    (h : exec K roots verbose .tick s = some s') :
    verbose = true ∧ s.active = true ∧
      s' = { s with out := s.out ++ [(s.i, s.nfiles.getD s.i 0, s.nbytes.getD s.i 0)] } := by
  simp only [exec] at h
  split at h
  · rename_i hg
    simp at hg
    exact ⟨hg.1, hg.2, (Option.some.inj h).symm⟩
  · simp at h

/-! ## The totals returned -/

theorem reachable_of_runActs {K : Nat} {roots : List Node} {verbose : Bool} :
    ∀ (acts : List Act) (s s' : State), Reachable K roots verbose s →
      runActs K roots verbose acts s = some s' → Reachable K roots verbose s'
  | [], s, s', hR, h => by
    simp [runActs] at h; subst h; exact hR
  | a :: acts, s, s', hR, h => by
    simp only [runActs] at h
    cases he : exec K roots verbose a s with
    | none => simp [he] at h
    | some s1 =>
      simp [he] at h
      exact reachable_of_runActs acts s1 s' (hR.step ⟨a, he⟩) h

theorem Inv.final {K : Nat} {roots : List Node} {verbose : Bool} {s : State}
    (hI : Inv K roots verbose s) (hr : s.returned roots = true) (i : Nat) (r : Node)
    (h : roots[i]? = some r) :
    s.nfiles[i]? = some (wrap64 r.count) ∧ s.nbytes[i]? = some (wrap64 r.bytes) := by
  simp [State.returned] at hr
  have hi : i < roots.length := (List.getElem?_eq_some_iff.mp h).1
  have hlt : i < s.i := by omega
  have hF := hI.totF i r h
  have hB := hI.totB i r h
  simp only [State.recvCount, State.recvBytes, hlt, if_true] at hF hB
  exact ⟨hF, hB⟩

theorem Inv.final_lists {K : Nat} {roots : List Node} {verbose : Bool} {s : State}
    (hI : Inv K roots verbose s) (hr : s.returned roots = true) :
    s.nfiles = roots.map (fun r => wrap64 r.count) ∧
      s.nbytes = roots.map (fun r => wrap64 r.bytes) := by
  constructor
  · apply List.ext_getElem?
    intro i
    cases h : roots[i]? with
    | none =>
      have : roots.length ≤ i := by simpa using h
      simp [h]
      rw [hI.lenF]; exact this
    | some r => simp [h, (hI.final hr i r h).1]
  · apply List.ext_getElem?
    intro i
    cases h : roots[i]? with
    | none =>
      have : roots.length ≤ i := by simpa using h
      simp [h]
      rw [hI.lenB]; exact this
    | some r => simp [h, (hI.final hr i r h).2]

/-- The function `GetDiskUsage` returns, and returns the wrapped totals. -/
theorem GetDiskUsage_eq {K : Nat} (hK : 0 < K) (roots : List Node) (verbose : Bool) :
    GetDiskUsage K roots verbose =
      (roots.map (fun r => wrap64 r.count), roots.map (fun r => wrap64 r.bytes)) := by
  have h0 : Reachable K roots verbose (init roots) := Reachable.init
  obtain ⟨hR, hr⟩ := run_returned hK ((init roots).fuel roots) (init roots) h0 (le_refl _)
  have := hR.inv.final_lists hr
  simp only [GetDiskUsage, this.1, this.2]

/-! ## Frame properties of the steps -/

theorem exec_frame {K : Nat} {roots : List Node} {verbose : Bool} {s s' : State} {a : Act}
    (h : exec K roots verbose a s = some s') (j : Nat) (hj : j ≠ s.i) :
    s'.nfiles[j]? = s.nfiles[j]? ∧ s'.nbytes[j]? = s.nbytes[j]? := by
  cases a with
  | launch => obtain ⟨_, r, _, rfl⟩ := exec_launch h; exact ⟨rfl, rfl⟩
  | acquire k => obtain ⟨d, _, _, rfl⟩ := exec_acquire h; exact ⟨rfl, rfl⟩
  | list k => obtain ⟨d, _, _, rfl⟩ := exec_list h; exact ⟨rfl, rfl⟩
  | visit k =>
    obtain ⟨e, es, _, h1 | h1⟩ := exec_visit h
    · obtain ⟨_, rfl⟩ := h1; exact ⟨rfl, rfl⟩
    · obtain ⟨_, _, _, rfl⟩ := h1
      exact ⟨List.getElem?_set_ne (Ne.symm hj), List.getElem?_set_ne (Ne.symm hj)⟩
  | done k => obtain ⟨_, rfl⟩ := exec_done h; exact ⟨rfl, rfl⟩
  | wake => obtain ⟨_, _, _, rfl⟩ := exec_wake h; exact ⟨rfl, rfl⟩
  | close => obtain ⟨_, _, rfl⟩ := exec_close h; exact ⟨rfl, rfl⟩
  | brk => obtain ⟨_, _, rfl⟩ := exec_brk h; exact ⟨rfl, rfl⟩
  | tick => obtain ⟨_, _, rfl⟩ := exec_tick h; exact ⟨rfl, rfl⟩

theorem exec_held {K : Nat} {roots : List Node} {verbose : Bool} {s s' : State} {a : Act}
    (h : exec K roots verbose a s = some s') (h1 : ∀ j, a ≠ .acquire j) (h2 : ∀ j, a ≠ .list j) :
    s'.held = s.held := by
  cases a with
  | launch => obtain ⟨_, r, _, rfl⟩ := exec_launch h; rfl
  | acquire k => exact absurd rfl (h1 k)
  | list k => exact absurd rfl (h2 k)
  | visit k =>
    obtain ⟨e, es, _, h1 | h1⟩ := exec_visit h
    · obtain ⟨_, rfl⟩ := h1; rfl
    · obtain ⟨_, _, _, rfl⟩ := h1; rfl
  | done k => obtain ⟨_, rfl⟩ := exec_done h; rfl
  | wake => obtain ⟨_, _, _, rfl⟩ := exec_wake h; rfl
  | close => obtain ⟨_, _, rfl⟩ := exec_close h; rfl
  | brk => obtain ⟨_, _, rfl⟩ := exec_brk h; rfl
  | tick => obtain ⟨_, _, rfl⟩ := exec_tick h; rfl

theorem tokens_eq_countP : ∀ ts : List Task,
    (ts.map Task.tokens).sum = ts.countP Task.inDirents
  | [] => rfl
  | t :: ts => by
    have ih := tokens_eq_countP ts
    cases t <;> simp [Task.tokens, Task.inDirents, List.countP_cons, ih]
    omega

/-- Once the counter of the current root is zero, no step changes it. -/
theorem exec_wg_zero {K : Nat} {roots : List Node} {verbose : Bool} {s s' : State} {a : Act}
    (hI : Inv K roots verbose s) (h : exec K roots verbose a s = some s')
    (ha : s.active = true) (hz : s.wg = 0) : s'.wg = 0 := by
  have ht : s.tasks = [] := by
    have := hI.wgEq; rw [hz] at this
    exact List.length_eq_zero.mp (by omega)
  cases a with
  | launch => obtain ⟨h0, _⟩ := exec_launch h; rw [ha] at h0; cases h0
  | acquire k => obtain ⟨d, hd, _⟩ := exec_acquire h; simp [ht] at hd
  | list k => obtain ⟨d, hd, _⟩ := exec_list h; simp [ht] at hd
  | visit k => obtain ⟨e, es, hd, _⟩ := exec_visit h; simp [ht] at hd
  | done k => obtain ⟨hd, _⟩ := exec_done h; simp [ht] at hd
  | wake => obtain ⟨_, _, _, rfl⟩ := exec_wake h; exact hz
  | close => obtain ⟨_, _, rfl⟩ := exec_close h; exact hz
  | brk => obtain ⟨_, _, rfl⟩ := exec_brk h; exact hz
  | tick => obtain ⟨_, _, rfl⟩ := exec_tick h; exact hz

theorem exec_zerosLeft {K : Nat} {roots : List Node} {verbose : Bool} {s s' : State} {a : Act}
    (hI : Inv K roots verbose s) (h : exec K roots verbose a s = some s') :
    (if s.wg ≠ 0 ∧ s'.wg = 0 then 1 else 0) + s'.zerosLeft roots = s.zerosLeft roots := by
  have hwg := hI.wgEq
  cases a with
  | launch =>
    obtain ⟨h0, r, hr, rfl⟩ := exec_launch h
    have hi : s.i < roots.length := (List.getElem?_eq_some_iff.mp hr).1
    simp [State.zerosLeft, h0]; omega
  | acquire k =>
    obtain ⟨d, hd, _, rfl⟩ := exec_acquire h
    have hz : s.wg ≠ 0 := by
      have := (List.getElem?_eq_some_iff.mp hd).1; omega
    simp [State.zerosLeft, hz]
  | list k =>
    obtain ⟨d, hd, _, rfl⟩ := exec_list h
    have hz : s.wg ≠ 0 := by
      have := (List.getElem?_eq_some_iff.mp hd).1; omega
    simp [State.zerosLeft, hz]
  | visit k =>
    obtain ⟨e, es, hd, h1 | h1⟩ := exec_visit h
    · obtain ⟨_, rfl⟩ := h1
      have hz : s.wg ≠ 0 := by
        have := (List.getElem?_eq_some_iff.mp hd).1; omega
      have hz2 : s.wg + 1 ≠ 0 := by omega
      simp [State.zerosLeft, hz, hz2]
    · obtain ⟨_, _, _, rfl⟩ := h1
      have hz : s.wg ≠ 0 := by
        have := (List.getElem?_eq_some_iff.mp hd).1; omega
      simp [State.zerosLeft, hz]
  | done k =>
    obtain ⟨hd, rfl⟩ := exec_done h
    have hl := (List.getElem?_eq_some_iff.mp hd).1
    have hz : s.wg ≠ 0 := by omega
    have ha := hI.active_of_task hd
    by_cases h1 : s.wg - 1 = 0
    · simp [State.zerosLeft, hz, h1, ha]
    · simp [State.zerosLeft, hz, h1, ha]
  | wake => obtain ⟨_, _, hz, rfl⟩ := exec_wake h; simp [State.zerosLeft, hz]
  | close => obtain ⟨_, _, rfl⟩ := exec_close h; simp [State.zerosLeft]
  | brk =>
    obtain ⟨ha, hc, rfl⟩ := exec_brk h
    have ht : s.tasks = [] := hI.closing (by rw [hc]; decide)
    have hz : s.wg = 0 := by rw [hwg, ht]; rfl
    simp [State.zerosLeft, hz, ha]
  | tick => obtain ⟨_, _, rfl⟩ := exec_tick h; simp [State.zerosLeft]

theorem zeroings_eq {K : Nat} {roots : List Node} {verbose : Bool} :
    ∀ (acts : List Act) (s s' : State), Reachable K roots verbose s →
      runActs K roots verbose acts s = some s' →
      zeroings K roots verbose acts s + s'.zerosLeft roots = s.zerosLeft roots
  | [], s, s', _, h => by
    simp [runActs] at h; subst h; simp [zeroings]
  | a :: acts, s, s', hR, h => by
    simp only [runActs] at h
    cases he : exec K roots verbose a s with
    | none => simp [he] at h
    | some s1 =>
      simp [he] at h
      have ih := zeroings_eq acts s1 s' (hR.step ⟨a, he⟩) h
      have h1 := exec_zerosLeft hR.inv he
      simp only [zeroings, he]
      omega

/-! ## Non-negative sizes: totals grow -/

theorem pending_ranging_cons (e : Node) (es : List Node) :
    (Task.ranging (e :: es)).pending = walkEntry e ++ (Task.ranging es).pending := rfl

theorem mem_of_getElem? {ts : List Task} {j : Nat} {t : Task} (h : ts[j]? = some t) :
    t ∈ ts := by
  obtain ⟨hl, rfl⟩ := List.getElem?_eq_some_iff.mp h
  exact List.getElem_mem hl

theorem pendBytes_nonneg {ts : List Task} (h : ∀ t ∈ ts, ∀ x ∈ t.pending, 0 ≤ x) :
    0 ≤ pendBytes ts := by
  apply List.sum_nonneg
  intro y hy
  obtain ⟨t, ht, rfl⟩ := List.mem_map.mp hy
  exact List.sum_nonneg (h t ht)

theorem pendCount_nonneg (ts : List Task) : 0 ≤ pendCount ts := by
  apply List.sum_nonneg
  intro y hy
  obtain ⟨t, _, rfl⟩ := List.mem_map.mp hy
  exact Int.ofNat_nonneg _

theorem pos_init (roots : List Node) : Pos roots (init roots) :=
  ⟨by simp [init], by simp [init], by simp [init]⟩

/-- A step keeps the invariant `Pos`, provided the root at the loop index has no
file of negative size. -/
theorem pos_step {K : Nat} {roots : List Node} {verbose : Bool} {s s' : State} {a : Act}
    (hN : ∀ r, roots[s.i]? = some r → ∀ x ∈ r.walk, 0 ≤ x)
    (hP : Pos roots s) (h : exec K roots verbose a s = some s') :
    Pos roots s' := by
  cases a with
  | launch =>
    obtain ⟨_, r, hr, rfl⟩ := exec_launch h
    refine ⟨?_, ?_, ?_⟩
    · intro t ht x hx
      simp at ht; subst ht
      exact hN r hr x hx
    · intro r' _ hr'
      have : r' = r := by simp only at hr'; rw [hr] at hr'; exact (Option.some.inj hr').symm
      subst this
      simp [pendCount, Task.pending, Node.count]
    · intro r' _ hr'
      have : r' = r := by simp only at hr'; rw [hr] at hr'; exact (Option.some.inj hr').symm
      subst this
      simp [pendBytes, Task.pending, Node.bytes]
  | acquire k =>
    obtain ⟨d, hd, _, rfl⟩ := exec_acquire h
    have hc := pendCount_set s.tasks k _ (.reading d) hd
    have hb := pendBytes_set s.tasks k _ (.reading d) hd
    simp only [Task.pending] at hc hb
    refine ⟨?_, ?_, ?_⟩
    · intro t ht x hx
      rcases List.mem_or_eq_of_mem_set ht with h1 | h1
      · exact hP.posP t h1 x hx
      · subst h1; exact hP.posP _ (mem_of_getElem? hd) x hx
    · intro r ha hr; have := hP.leC r ha hr; simp only at this ⊢; omega
    · intro r ha hr; have := hP.leB r ha hr; simp only at this ⊢; omega
  | list k =>
    obtain ⟨d, hd, _, rfl⟩ := exec_list h
    have hc := pendCount_set s.tasks k _ (.ranging (direntsResult d)) hd
    have hb := pendBytes_set s.tasks k _ (.ranging (direntsResult d)) hd
    simp only [Task.pending, walk_eq d] at hc hb
    refine ⟨?_, ?_, ?_⟩
    · intro t ht x hx
      rcases List.mem_or_eq_of_mem_set ht with h1 | h1
      · exact hP.posP t h1 x hx
      · subst h1
        refine hP.posP _ (mem_of_getElem? hd) x ?_
        simpa [Task.pending, walk_eq d] using hx
    · intro r ha hr; have := hP.leC r ha hr; simp only at this ⊢; omega
    · intro r ha hr; have := hP.leB r ha hr; simp only at this ⊢; omega
  | visit k =>
    obtain ⟨e, es, hd, h1 | h1⟩ := exec_visit h
    · obtain ⟨hdir, rfl⟩ := h1
      have hc := pendCount_set s.tasks k _ (.ranging es) hd
      have hb := pendBytes_set s.tasks k _ (.ranging es) hd
      have h1 : pendCount [Task.start e] = e.walk.length := by simp [pendCount, Task.pending]
      have h2 : pendBytes [Task.start e] = e.walk.sum := by simp [pendBytes, Task.pending]
      simp only [Task.pending, walkEntries, walkEntry_eq e, hdir, if_true, List.length_append,
        List.sum_append, Nat.cast_add] at hc hb
      have hold := hP.posP _ (mem_of_getElem? hd)
      simp only [pending_ranging_cons, walkEntry_eq e, hdir, if_true, List.mem_append] at hold
      refine ⟨?_, ?_, ?_⟩
      · intro t ht x hx
        rcases List.mem_append.mp ht with h3 | h3
        · rcases List.mem_or_eq_of_mem_set h3 with h4 | h4
          · exact hP.posP t h4 x hx
          · subst h4; exact hold x (Or.inr hx)
        · simp at h3; subst h3
          exact hold x (Or.inl hx)
      · intro r ha hr
        have := hP.leC r ha hr
        simp only [pendCount_append, h1] at this ⊢; omega
      · intro r ha hr
        have := hP.leB r ha hr
        simp only [pendBytes_append, h2] at this ⊢; omega
    · obtain ⟨hdir, _, _, rfl⟩ := h1
      have hc := pendCount_set s.tasks k _ (.ranging es) hd
      have hb := pendBytes_set s.tasks k _ (.ranging es) hd
      simp only [Task.pending, walkEntries, walkEntry_eq e, hdir, Bool.false_eq_true, if_false,
        List.length_append, List.sum_append, Nat.cast_add, List.length_singleton,
        List.sum_singleton, Nat.cast_one] at hc hb
      have hold := hP.posP _ (mem_of_getElem? hd)
      simp only [pending_ranging_cons, walkEntry_eq e, hdir, Bool.false_eq_true, if_false,
        List.mem_append, List.mem_singleton] at hold
      have hsz : 0 ≤ e.Size := hold _ (Or.inl rfl)
      refine ⟨?_, ?_, ?_⟩
      · intro t ht x hx
        rcases List.mem_or_eq_of_mem_set ht with h4 | h4
        · exact hP.posP t h4 x hx
        · subst h4; exact hold x (Or.inr hx)
      · intro r ha hr; have := hP.leC r ha hr; simp only at this ⊢; omega
      · intro r ha hr; have := hP.leB r ha hr; simp only at this ⊢; omega
  | done k =>
    obtain ⟨hd, rfl⟩ := exec_done h
    have hc := pendCount_eraseIdx s.tasks k _ hd
    have hb := pendBytes_eraseIdx s.tasks k _ hd
    simp only [Task.pending, walkEntries, List.length_nil, List.sum_nil] at hc hb
    refine ⟨?_, ?_, ?_⟩
    · intro t ht x hx
      exact hP.posP t (List.mem_of_mem_eraseIdx ht) x hx
    · intro r ha hr; have := hP.leC r ha hr; simp only at this ⊢; simp at hc; omega
    · intro r ha hr; have := hP.leB r ha hr; simp only at this ⊢; simp at hb; omega
  | wake => obtain ⟨_, _, _, rfl⟩ := exec_wake h; exact ⟨hP.posP, hP.leC, hP.leB⟩
  | close => obtain ⟨_, _, rfl⟩ := exec_close h; exact ⟨hP.posP, hP.leC, hP.leB⟩
  | brk =>
    obtain ⟨_, _, rfl⟩ := exec_brk h
    exact ⟨hP.posP, fun _ ha _ => by simp at ha, fun _ ha _ => by simp at ha⟩
  | tick => obtain ⟨_, _, rfl⟩ := exec_tick h; exact ⟨hP.posP, hP.leC, hP.leB⟩

theorem mem_of_root {roots : List Node} {i : Nat} {r : Node} (h : roots[i]? = some r) :
    r ∈ roots := by
  obtain ⟨hl, rfl⟩ := List.getElem?_eq_some_iff.mp h
  exact List.getElem_mem hl

theorem exec_i_of_active {K : Nat} {roots : List Node} {verbose : Bool} {s s' : State}
    {a : Act} (h : exec K roots verbose a s = some s') (ha : s'.active = true) :
    s'.i = s.i := by
  cases a with
  | launch => obtain ⟨_, r, _, rfl⟩ := exec_launch h; rfl
  | acquire k => obtain ⟨d, _, _, rfl⟩ := exec_acquire h; rfl
  | list k => obtain ⟨d, _, _, rfl⟩ := exec_list h; rfl
  | visit k =>
    obtain ⟨e, es, _, h1 | h1⟩ := exec_visit h
    · obtain ⟨_, rfl⟩ := h1; rfl
    · obtain ⟨_, _, _, rfl⟩ := h1; rfl
  | done k => obtain ⟨_, rfl⟩ := exec_done h; rfl
  | wake => obtain ⟨_, _, _, rfl⟩ := exec_wake h; rfl
  | close => obtain ⟨_, _, rfl⟩ := exec_close h; rfl
  | brk => obtain ⟨_, _, rfl⟩ := exec_brk h; simp at ha
  | tick => obtain ⟨_, _, rfl⟩ := exec_tick h; rfl

theorem pos_idle {K : Nat} {roots : List Node} {verbose : Bool} {s : State}
    (hI : Inv K roots verbose s) (ha : s.active = false) : Pos roots s := by
  have ht := hI.idle ha
  refine ⟨?_, ?_, ?_⟩
  · intro t h; rw [ht] at h; simp at h
  · intro r h; rw [ha] at h; cases h
  · intro r h; rw [ha] at h; cases h

/-- While a root without files of negative size is being scanned, `Pos` holds,
whatever the other roots are. -/
theorem Reachable.pos_current {K : Nat} {roots : List Node} {verbose : Bool} {s : State}
    (h : Reachable K roots verbose s) :
    (∀ r, roots[s.i]? = some r → ∀ x ∈ r.walk, 0 ≤ x) → Pos roots s := by
  induction h with
  | init => intro _; exact pos_init roots
  | @step s s' hR hs ih =>
    intro hN
    obtain ⟨a, ha⟩ := hs
    cases hact : s'.active with
    | false => exact pos_idle (inv_step hR.inv ⟨a, ha⟩) hact
    | true =>
      have hi := exec_i_of_active ha hact
      rw [hi] at hN
      exact pos_step hN (ih hN) ha

theorem walk_sum_nonneg {r : Node} (h : ∀ x ∈ r.walk, 0 ≤ x) : 0 ≤ r.bytes :=
  List.sum_nonneg h

/-- For a root whose files are in range, the totals held by the main goroutine
are exactly what has been received for it. -/
theorem Inv.exact {K : Nat} {roots : List Node} {verbose : Bool} {s : State}
    (hI : Inv K roots verbose s) (j : Nat) (r : Node) (hr : roots[j]? = some r)
    (hG : r.inRange) (hP : j = s.i → s.active = true → Pos roots s) :
    s.nfiles[j]? = some (s.recvCount j r) ∧ s.nbytes[j]? = some (s.recvBytes j r) ∧
      (0 ≤ s.recvCount j r ∧ s.recvCount j r ≤ r.count) ∧
      (0 ≤ s.recvBytes j r ∧ s.recvBytes j r ≤ r.bytes) := by
  obtain ⟨hN, hBc, hBb⟩ := hG
  have hc0 : 0 ≤ r.count := Int.ofNat_nonneg _
  have hb0 : 0 ≤ r.bytes := walk_sum_nonneg hN
  have hpc := pendCount_nonneg s.tasks
  have hbc : (0 ≤ s.recvCount j r ∧ s.recvCount j r ≤ r.count) := by
    simp only [State.recvCount]
    split_ifs with h1 h2
    · omega
    · have := (hP h2.1 h2.2).leC r h2.2 (h2.1 ▸ hr); omega
    · omega
  have hbb : (0 ≤ s.recvBytes j r ∧ s.recvBytes j r ≤ r.bytes) := by
    simp only [State.recvBytes]
    split_ifs with h1 h2
    · omega
    · have hPs := hP h2.1 h2.2
      have := hPs.leB r h2.2 (h2.1 ▸ hr)
      have hpb := pendBytes_nonneg hPs.posP
      omega
    · omega
  refine ⟨?_, ?_, hbc, hbb⟩
  · rw [hI.totF j r hr, wrap64_of_range _ (by omega) (by omega)]
  · rw [hI.totB j r hr, wrap64_of_range _ (by omega) (by omega)]

/-- No step makes the number of files or of bytes received for a root smaller;
for the root being scanned this uses that none of its pending sizes is
negative. -/
theorem exec_recv_mono {K : Nat} {roots : List Node} {verbose : Bool} {s s' : State} {a : Act}
    (hI : Inv K roots verbose s) (h : exec K roots verbose a s = some s')
    (j : Nat) (r : Node) (hr : roots[j]? = some r)
    (hP : j = s.i → s.active = true → Pos roots s) :
    s.recvCount j r ≤ s'.recvCount j r ∧ s.recvBytes j r ≤ s'.recvBytes j r := by
  cases a with
  | launch =>
    obtain ⟨h0, r0, hr0, rfl⟩ := exec_launch h
    simp only [State.recvCount, State.recvBytes, h0, Bool.false_eq_true, and_false, if_false,
      and_true]
    by_cases h1 : j < s.i
    · simp [h1]
    · by_cases h2 : j = s.i
      · subst h2
        rw [hr] at hr0; cases hr0
        simp [pendCount, pendBytes, Task.pending, Node.count, Node.bytes]
      · simp [h1, h2]
  | acquire k =>
    obtain ⟨d, hd, _, rfl⟩ := exec_acquire h
    have hc := pendCount_set s.tasks k _ (.reading d) hd
    have hb := pendBytes_set s.tasks k _ (.reading d) hd
    simp only [Task.pending] at hc hb
    simp only [State.recvCount, State.recvBytes, hc, hb]
    constructor <;> split_ifs <;> omega
  | list k =>
    obtain ⟨d, hd, _, rfl⟩ := exec_list h
    have hc := pendCount_set s.tasks k _ (.ranging (direntsResult d)) hd
    have hb := pendBytes_set s.tasks k _ (.ranging (direntsResult d)) hd
    simp only [Task.pending, walk_eq d] at hc hb
    simp only [State.recvCount, State.recvBytes, hc, hb]
    constructor <;> split_ifs <;> omega
  | visit k =>
    obtain ⟨e, es, hd, h1 | h1⟩ := exec_visit h
    · obtain ⟨hdir, rfl⟩ := h1
      have hc := pendCount_set s.tasks k _ (.ranging es) hd
      have hb := pendBytes_set s.tasks k _ (.ranging es) hd
      have h1 : pendCount [Task.start e] = e.walk.length := by simp [pendCount, Task.pending]
      have h2 : pendBytes [Task.start e] = e.walk.sum := by simp [pendBytes, Task.pending]
      simp only [Task.pending, walkEntries, walkEntry_eq e, hdir, if_true, List.length_append,
        List.sum_append, Nat.cast_add] at hc hb
      simp only [State.recvCount, State.recvBytes, pendCount_append, pendBytes_append, hc, hb,
        h1, h2]
      constructor <;> split_ifs <;> omega
    · obtain ⟨hdir, hact, _, rfl⟩ := h1
      have hc := pendCount_set s.tasks k _ (.ranging es) hd
      have hb := pendBytes_set s.tasks k _ (.ranging es) hd
      simp only [Task.pending, walkEntries, walkEntry_eq e, hdir, Bool.false_eq_true, if_false,
        List.length_append, List.sum_append, Nat.cast_add, List.length_singleton,
        List.sum_singleton, Nat.cast_one] at hc hb
      by_cases hj : j = s.i
      · have hold := (hP hj hact).posP _ (mem_of_getElem? hd)
        simp only [pending_ranging_cons, walkEntry_eq e, hdir, Bool.false_eq_true, if_false,
          List.mem_append, List.mem_singleton] at hold
        have hsz : 0 ≤ e.Size := hold _ (Or.inl rfl)
        simp only [State.recvCount, State.recvBytes, hc, hb]
        constructor <;> split_ifs <;> omega
      · simp only [State.recvCount, State.recvBytes, hj, false_and, if_false]
        exact ⟨le_refl _, le_refl _⟩
  | done k =>
    obtain ⟨hd, rfl⟩ := exec_done h
    have hc := pendCount_eraseIdx s.tasks k _ hd
    have hb := pendBytes_eraseIdx s.tasks k _ hd
    simp only [Task.pending, walkEntries, List.length_nil, List.sum_nil, Nat.cast_zero,
      sub_zero] at hc hb
    simp only [State.recvCount, State.recvBytes, hc, hb]
    constructor <;> split_ifs <;> omega
  | wake => obtain ⟨_, _, _, rfl⟩ := exec_wake h; exact ⟨le_refl _, le_refl _⟩
  | close => obtain ⟨_, _, rfl⟩ := exec_close h; exact ⟨le_refl _, le_refl _⟩
  | brk =>
    obtain ⟨ha, hc, rfl⟩ := exec_brk h
    have ht : s.tasks = [] := hI.closing (by rw [hc]; decide)
    simp only [State.recvCount, State.recvBytes, ha, and_true, Bool.false_eq_true, and_false,
      if_false, ht]
    by_cases h1 : j < s.i
    · simp [h1, Nat.lt_succ_of_lt h1]
    · by_cases h2 : j = s.i
      · simp [h2, pendCount, pendBytes]
      · have h3 : ¬ j < s.i + 1 := by omega
        simp [h1, h2, h3]
  | tick => obtain ⟨_, _, rfl⟩ := exec_tick h; exact ⟨le_refl _, le_refl _⟩


theorem Reachable.pos_at {K : Nat} {roots : List Node} {verbose : Bool} {s : State}
    (hR : Reachable K roots verbose s) {j : Nat} {r : Node} (hr : roots[j]? = some r)
    (hG : r.inRange) : j = s.i → s.active = true → Pos roots s := by
  intro hj _
  apply hR.pos_current
  intro r2 hr2
  rw [← hj, hr] at hr2
  cases hr2
  exact hG.1

theorem snap_init (roots : List Node) : Snap roots (init roots) :=
  ⟨by simp [init], by simp [init], by simp [init]⟩

theorem snap_step {K : Nat} {roots : List Node} {verbose : Bool} {s s' : State} {a : Act}
    (hR : Reachable K roots verbose s) (hS : Snap roots s)
    (h : exec K roots verbose a s = some s') : Snap roots s' := by
  have hI := hR.inv
  by_cases hout : s'.out = s.out
  · refine ⟨hout ▸ hS.valid, ?_, hout ▸ hS.mono⟩
    intro p hp r hr hG
    rw [hout] at hp
    have h1 := hS.le p hp r hr hG
    have h2 := exec_recv_mono hI h p.1 r hr (hR.pos_at hr hG)
    exact ⟨le_trans h1.1 h2.1, le_trans h1.2 h2.2⟩
  · cases a with
    | launch => obtain ⟨_, r, _, rfl⟩ := exec_launch h; exact absurd rfl hout
    | acquire k => obtain ⟨d, _, _, rfl⟩ := exec_acquire h; exact absurd rfl hout
    | list k => obtain ⟨d, _, _, rfl⟩ := exec_list h; exact absurd rfl hout
    | visit k =>
      obtain ⟨e, es, _, h1 | h1⟩ := exec_visit h
      · obtain ⟨_, rfl⟩ := h1; exact absurd rfl hout
      · obtain ⟨_, _, _, rfl⟩ := h1; exact absurd rfl hout
    | done k => obtain ⟨_, rfl⟩ := exec_done h; exact absurd rfl hout
    | wake => obtain ⟨_, _, _, rfl⟩ := exec_wake h; exact absurd rfl hout
    | close => obtain ⟨_, _, rfl⟩ := exec_close h; exact absurd rfl hout
    | brk => obtain ⟨_, _, rfl⟩ := exec_brk h; exact absurd rfl hout
    | tick =>
      obtain ⟨_, ha, rfl⟩ := exec_tick h
      have hi := hI.idxA ha
      have hnew : ∀ r, roots[s.i]? = some r → r.inRange →
          s.nfiles.getD s.i 0 = s.recvCount s.i r ∧
            s.nbytes.getD s.i 0 = s.recvBytes s.i r := by
        intro r hr hG
        obtain ⟨hF, hBy, _, _⟩ := hI.exact s.i r hr hG (hR.pos_at hr hG)
        simp [List.getD_eq_getElem?_getD, hF, hBy]
      refine ⟨?_, ?_, ?_⟩
      · intro p hp
        rcases List.mem_append.mp hp with h1 | h1
        · exact hS.valid p h1
        · have h1 := List.mem_singleton.mp h1; subst h1; exact hi
      · intro p hp r hr hG
        rcases List.mem_append.mp hp with h1 | h1
        · exact hS.le p h1 r hr hG
        · have h1 := List.mem_singleton.mp h1; subst h1
          obtain ⟨e1, e2⟩ := hnew r hr hG
          exact ⟨le_of_eq e1, le_of_eq e2⟩
      · refine List.pairwise_append.mpr ⟨hS.mono, List.pairwise_singleton _ _, ?_⟩
        intro p hp q hq
        have hq := List.mem_singleton.mp hq; subst hq
        intro heq r hr hG
        have heq : p.1 = s.i := heq
        have h1 := hS.le p hp r hr hG
        rw [heq] at h1 hr
        obtain ⟨e1, e2⟩ := hnew r hr hG
        show p.2.1 ≤ s.nfiles.getD s.i 0 ∧ p.2.2 ≤ s.nbytes.getD s.i 0
        rw [e1, e2]
        exact h1

theorem Reachable.snap {K : Nat} {roots : List Node} {verbose : Bool} {s : State}
    (h : Reachable K roots verbose s) : Snap roots s := by
  induction h with
  | init => exact snap_init roots
  | step hR hs ih =>
    obtain ⟨a, ha⟩ := hs
    exact snap_step hR ih ha

/-! ## Properties of `GetDiskUsage` -/

theorem run_reachable {K : Nat} {roots : List Node} {verbose : Bool} :
    ∀ (n : Nat) (s : State), Reachable K roots verbose s →
      Reachable K roots verbose (run K roots verbose n s)
  | 0, s, hR => by simpa [run] using hR
  | n + 1, s, hR => by
    cases hp : pick roots s with
    | none => simp only [run, hp]; exact hR
    | some a =>
      cases he : exec K roots verbose a s with
      | none => simp only [run, hp, he]; exact hR
      | some s1 =>
        simp only [run, hp, he]
        exact run_reachable n s1 (hR.step ⟨a, he⟩)

theorem wrap64_count (r : Node) (h : r.count < 9223372036854775808) :
    wrap64 r.count = r.count :=
  wrap64_of_range _ (by have : 0 ≤ r.count := Int.ofNat_nonneg _; omega) h

/-- Termination of the scan under every schedule: a reachable state from which
`GetDiskUsage` has not returned always has a goroutine able to move, every step
other than a tick uses up exactly one unit of the finite `fuel`, and the
scheduler `pick` reaches the return. -/
theorem scan_terminates {K : Nat} {roots : List Node} {verbose : Bool} (hK : 0 < K)
    (s : State) (hR : Reachable K roots verbose s) :
    (s.returned roots = false →
        ∃ a, a ≠ Act.tick ∧ (exec K roots verbose a s).isSome = true) ∧
      (∀ (a : Act) (s2 : State), exec K roots verbose a s = some s2 → a ≠ Act.tick →
        s2.fuel roots + 1 = s.fuel roots) ∧
      ∃ n, Reachable K roots verbose (run K roots verbose n s) ∧
        (run K roots verbose n s).returned roots = true := by
  refine ⟨?_, ?_, s.fuel roots, run_returned hK _ s hR (le_refl _)⟩
  · intro hr
    obtain ⟨a, _, hne, he⟩ := pick_enabled hR.inv hK hr
    exact ⟨a, hne, he⟩
  · intro a s2 he hne
    exact exec_fuel hR.inv he hne

/-- C1, amended. With a semaphore of capacity at least one, for every list of
roots and every interleaving of the goroutines: `GetDiskUsage` returns (the
function does; under every schedule no state is stuck, every step other than a
tick uses up one unit of a finite budget, and every state reached can be driven
to the return), and whenever it has returned `nfiles[i]` is the number of files
reachable from `roots[i]` and `nbytes[i]` the sum of their sizes, both reduced
to `int64` by two's-complement wrap-around; they are the exact number and the
exact sum whenever these lie in the `int64` range. -/
theorem getDiskUsage_totals_wrapped (K : Nat) (roots : List Node) (verbose : Bool)
    (hK : 0 < K) :
    GetDiskUsage K roots verbose =
        (roots.map (fun r => wrap64 r.count), roots.map (fun r => wrap64 r.bytes)) ∧
      (∀ (s : State), Reachable K roots verbose s →
        (s.returned roots = false →
          ∃ a, a ≠ Act.tick ∧ (exec K roots verbose a s).isSome = true) ∧
        (∀ (a : Act) (s2 : State), exec K roots verbose a s = some s2 → a ≠ Act.tick →
          s2.fuel roots + 1 = s.fuel roots) ∧
        ∃ n, Reachable K roots verbose (run K roots verbose n s) ∧
          (run K roots verbose n s).returned roots = true) ∧
      (∀ s, Reachable K roots verbose s → s.returned roots = true →
        ∀ (i : Nat) (r : Node), roots[i]? = some r →
          s.nfiles[i]? = some (wrap64 r.count) ∧ s.nbytes[i]? = some (wrap64 r.bytes) ∧
          (r.count < 9223372036854775808 → s.nfiles[i]? = some r.count) ∧
          (-9223372036854775808 ≤ r.bytes → r.bytes < 9223372036854775808 →
            s.nbytes[i]? = some r.bytes)) := by
  refine ⟨GetDiskUsage_eq hK roots verbose, ?_, ?_⟩
  · intro s hR
    exact scan_terminates hK s hR
  · intro s hR hr i r hi
    obtain ⟨hF, hB⟩ := hR.inv.final hr i r hi
    refine ⟨hF, hB, ?_, ?_⟩
    · intro h; rw [hF, wrap64_count r h]
    · intro h1 h2; rw [hB, wrap64_of_range _ h1 h2]

theorem getDiskUsage_totals_wrapped_witness :
    0 < 2 ∧ GetDiskUsage 2 [sampleTree] true = ([3], [12]) :=
  ⟨by decide, by
    rw [(getDiskUsage_totals_wrapped 2 [sampleTree] true (by decide)).1]
    decide⟩

/-- C1, counterexample. A directory with two files of 2^62 bytes: the sum of
the sizes is 2^63, `GetDiskUsage` returns `nbytes = -2^63`. -/
theorem getDiskUsage_sum_overflow :
    GetDiskUsage semaCap [sparsePair] false = ([2], [-9223372036854775808]) ∧
      sparsePair.count = 2 ∧ sparsePair.bytes = 9223372036854775808 ∧
      (GetDiskUsage semaCap [sparsePair] false).2 ≠ [sparsePair.bytes] := by
  decide

/-- C2, amended. For every list of roots, whenever `GetDiskUsage` has returned,
`nfiles` and `nbytes` have the length of `roots` and are what the function
`GetDiskUsage` returns, and for every index `i` the pair `(nfiles[i],
nbytes[i])` is the total of `roots[i]` alone: the number of files reachable
from `roots[i]` and the sum of their sizes, each reduced to `int64` by
two's-complement wrap-around, hence the exact number and sum whenever these lie
in the `int64` range; it is also the pair returned by a scan of `roots[i]` on
its own, whatever the schedule, semaphore capacity and verbosity of that scan.
No step of a scan changes the length of `nfiles` or `nbytes` or an entry other
than the one of the root being scanned. -/
theorem getDiskUsage_per_root (K : Nat) (roots : List Node) (verbose : Bool) (hK : 0 < K)
    (s : State) (hR : Reachable K roots verbose s) (hr : s.returned roots = true) :
    s.nfiles.length = roots.length ∧ s.nbytes.length = roots.length ∧
      GetDiskUsage K roots verbose = (s.nfiles, s.nbytes) ∧
      (∀ (i : Nat) (r : Node), roots[i]? = some r →
        s.nfiles[i]? = some (wrap64 r.count) ∧ s.nbytes[i]? = some (wrap64 r.bytes) ∧
          (r.count < 9223372036854775808 → s.nfiles[i]? = some r.count) ∧
          (-9223372036854775808 ≤ r.bytes → r.bytes < 9223372036854775808 →
            s.nbytes[i]? = some r.bytes) ∧
          GetDiskUsage K [r] verbose = ([wrap64 r.count], [wrap64 r.bytes]) ∧
          ∀ (K2 : Nat) (verbose2 : Bool) (t : State), Reachable K2 [r] verbose2 t →
            t.returned [r] = true →
              t.nfiles = [wrap64 r.count] ∧ t.nbytes = [wrap64 r.bytes]) ∧
      (∀ (t t2 : State), Reachable K roots verbose t → Step K roots verbose t t2 →
        t2.nfiles.length = roots.length ∧ t2.nbytes.length = roots.length ∧
          ∀ (j : Nat), j ≠ t.i →
            t2.nfiles[j]? = t.nfiles[j]? ∧ t2.nbytes[j]? = t.nbytes[j]?) := by
  have hI := hR.inv
  have hfl := hI.final_lists hr
  refine ⟨hI.lenF, hI.lenB, ?_, ?_, ?_⟩
  · rw [GetDiskUsage_eq hK, hfl.1, hfl.2]
  · intro i r hi
    obtain ⟨h1, h2⟩ := hI.final hr i r hi
    refine ⟨h1, h2, ?_, ?_, ?_, ?_⟩
    · intro h; rw [h1, wrap64_count r h]
    · intro h3 h4; rw [h2, wrap64_of_range _ h3 h4]
    · have e := GetDiskUsage_eq hK [r] verbose
      simp only [e, List.map_cons, List.map_nil]
    · intro K2 v2 t ht htr
      have h3 := ht.inv.final_lists htr
      simp only [List.map_cons, List.map_nil] at h3
      exact h3
  · intro t t2 ht hs
    have hI2 := inv_step ht.inv hs
    obtain ⟨a, ha⟩ := hs
    exact ⟨hI2.lenF, hI2.lenB, fun j hj => exec_frame ha j hj⟩

theorem sampleFinal_reachable :
    Reachable 2 sampleRoots true sampleFinal ∧ sampleFinal.returned sampleRoots = true :=
  run_returned (by decide) _ _ Reachable.init (le_refl _)

theorem getDiskUsage_per_root_witness :
    0 < 2 ∧ sampleFinal.returned sampleRoots = true ∧
      sampleFinal.nfiles.length = sampleRoots.length ∧
      GetDiskUsage 2 sampleRoots true = (sampleFinal.nfiles, sampleFinal.nbytes) ∧
      sampleRoots[2]? = some sampleTree ∧ sampleTree.count = 3 ∧ sampleTree.bytes = 12 ∧
      sampleFinal.nfiles[2]? = some sampleTree.count ∧
      sampleFinal.nbytes[2]? = some sampleTree.bytes ∧
      sampleFinal.nfiles = [3, 0, 3] ∧ sampleFinal.nbytes = [12, 0, 12] :=
  have h := getDiskUsage_per_root 2 sampleRoots true (by decide) sampleFinal
    sampleFinal_reachable.1 sampleFinal_reachable.2
  have h2 := h.2.2.2.1 2 sampleTree rfl
  ⟨by decide, sampleFinal_reachable.2, h.1, h.2.2.1, rfl, by decide, by decide,
    h2.2.2.1 (by decide), h2.2.2.2.1 (by decide) (by decide), by decide, by decide⟩

/-- C2, counterexample. Two roots scanned together, the second with two files
of 2^62 bytes: `GetDiskUsage` returns `nfiles = [2, 2]` and `nbytes = [8, -2^63]`;
the entry of the first root is its total, the entry of the second root is not
the total 2^63 of that root. -/
theorem getDiskUsage_per_root_overflow :
    GetDiskUsage semaCap mixedRoots false = ([2, 2], [8, -9223372036854775808]) ∧
      mixedRoots[0]? = some smallPair ∧ smallPair.count = 2 ∧ smallPair.bytes = 8 ∧
      mixedRoots[1]? = some sparsePair ∧ sparsePair.count = 2 ∧
      sparsePair.bytes = 9223372036854775808 ∧
      (GetDiskUsage semaCap mixedRoots false).2[1]? ≠ some sparsePair.bytes :=
  ⟨by decide, rfl, by decide, by decide, rfl, by decide, by decide, by decide⟩

/-- C3, amended. A directory whose listing fails makes `dirents` return no
entry, the step that ends its `dirents` call leaves the goroutine with nothing
to visit and touches nothing but the task and the token, and the files under it
are not among the reachable ones, whatever its siblings.  With a semaphore of
capacity at least one the scan terminates under every schedule (no state is
stuck, every step other than a tick uses up one unit of a finite budget, every
state reached can be driven to the return of `GetDiskUsage`), and whenever it
has returned `nfiles[i]` and `nbytes[i]` are the number and the sum of the sizes
of the files found in the successfully listed directories under `roots[i]`,
reduced to `int64` by wrap-around, hence exact whenever they lie in the `int64`
range. -/
theorem failed_listing_contributes_nothing (K : Nat) (roots : List Node) (verbose : Bool)
    (hK : 0 < K) :
    (∀ (d : Node), ReadDir d = none →
        direntsResult d = [] ∧ d.walk = [] ∧
          ∀ (held : Nat), held < K → dirents K held d = some (held, [])) ∧
      (∀ (s : State) (j : Nat) (d : Node), s.tasks[j]? = some (.reading d) →
        ReadDir d = none → 0 < s.held →
          exec K roots verbose (.list j) s =
            some { s with tasks := s.tasks.set j (.ranging []), held := s.held - 1 }) ∧
      (∀ (n : String) (es rest : List Node),
        walkEntries (.dir n true es :: rest) = walkEntries rest) ∧
      (∀ (s : State), Reachable K roots verbose s →
        (s.returned roots = false →
          ∃ a, a ≠ Act.tick ∧ (exec K roots verbose a s).isSome = true) ∧
        (∀ (a : Act) (s2 : State), exec K roots verbose a s = some s2 → a ≠ Act.tick →
          s2.fuel roots + 1 = s.fuel roots) ∧
        ∃ n, Reachable K roots verbose (run K roots verbose n s) ∧
          (run K roots verbose n s).returned roots = true) ∧
      (∀ (s : State), Reachable K roots verbose s → s.returned roots = true →
        ∀ (i : Nat) (r : Node), roots[i]? = some r →
          s.nfiles[i]? = some (wrap64 r.count) ∧ s.nbytes[i]? = some (wrap64 r.bytes) ∧
          (r.count < 9223372036854775808 → s.nfiles[i]? = some r.count) ∧
          (-9223372036854775808 ≤ r.bytes → r.bytes < 9223372036854775808 →
            s.nbytes[i]? = some r.bytes)) := by
  refine ⟨?_, ?_, ?_, ?_, ?_⟩
  · intro d hd
    have h1 : direntsResult d = [] := by simp only [direntsResult, hd]
    refine ⟨h1, ?_, ?_⟩
    · rw [walk_eq, h1]; simp only [walkEntries]
    · intro held hh
      have h2 : 0 < held + 1 := Nat.succ_pos _
      simp only [dirents, semaAcquire, semaRelease, hh, h2, if_true, Option.some_bind,
        Option.map_some', h1, Nat.add_sub_cancel]
  · intro s j d hj hd hh
    have h1 : direntsResult d = [] := by simp only [direntsResult, hd]
    simp only [exec, hj, semaRelease, hh, if_true, Option.map_some', h1]
  · intro n es rest
    simp only [walkEntries, walkEntry, if_true, List.nil_append]
  · intro s hR
    exact scan_terminates hK s hR
  · intro s hR hr i r hi
    obtain ⟨hF, hB⟩ := hR.inv.final hr i r hi
    refine ⟨hF, hB, ?_, ?_⟩
    · intro h; rw [hF, wrap64_count r h]
    · intro h1 h2; rw [hB, wrap64_of_range _ h1 h2]

theorem failed_listing_contributes_nothing_witness :
    0 < 2 ∧ GetDiskUsage 2 [sampleTree] false = ([3], [12]) ∧
      sampleTree.count = 3 ∧ sampleTree.bytes = 12 ∧
      sampleTree.allSizes = [3, 4, 100, 5] ∧
      direntsResult (.dir "c" true [.file "z" 100]) = [] :=
  have h := failed_listing_contributes_nothing 2 [sampleTree] false (by decide)
  ⟨by decide, by decide, by decide, by decide, by decide,
    (h.1 (.dir "c" true [.file "z" 100]) rfl).1⟩

/-- C3, counterexample. Two files of 2^62 bytes around a directory whose
listing fails: the files found in the listed directories sum to 2^63,
`GetDiskUsage` returns `nbytes = -2^63`. -/
theorem failed_listing_sum_overflow :
    GetDiskUsage semaCap [sparseWithFailure] false = ([2], [-9223372036854775808]) ∧
      sparseWithFailure.count = 2 ∧ sparseWithFailure.bytes = 9223372036854775808 ∧
      (GetDiskUsage semaCap [sparseWithFailure] false).2 ≠ [sparseWithFailure.bytes] := by
  decide

/-- C4, amended. In every reachable state every progress line belongs to a root
of the call, and for every root whose files have non-negative sizes and whose
number of files and total size are below 2^63, whatever the other roots are,
the progress lines printed so far for that root are non-decreasing in both
components and every one of them is component-wise at most the totals that
`GetDiskUsage` returns for that root.  In particular, when this holds of every
root, the whole sequence of progress lines is non-decreasing root by root and
bounded by the returned totals. -/
theorem progress_monotone_in_range (K : Nat) (roots : List Node) (verbose : Bool)
    (s : State) (hR : Reachable K roots verbose s) :
    (∀ p ∈ s.out, p.1 < roots.length) ∧
      (∀ (j : Nat) (r : Node), roots[j]? = some r → (∀ x ∈ r.walk, 0 ≤ x) →
        r.count < 9223372036854775808 → r.bytes < 9223372036854775808 →
          s.out.Pairwise (fun p q => p.1 = j → q.1 = j → p.2.1 ≤ q.2.1 ∧ p.2.2 ≤ q.2.2) ∧
          ∀ (t : State), Reachable K roots verbose t → t.returned roots = true →
            ∀ p ∈ s.out, p.1 = j →
              ∃ (nf nb : Int), t.nfiles[j]? = some nf ∧ t.nbytes[j]? = some nb ∧
                p.2.1 ≤ nf ∧ p.2.2 ≤ nb) ∧
      ((∀ r ∈ roots, ∀ x ∈ r.walk, 0 ≤ x) →
        (∀ r ∈ roots, r.count < 9223372036854775808 ∧ r.bytes < 9223372036854775808) →
          s.out.Pairwise SnapLe ∧
          ∀ (t : State), Reachable K roots verbose t → t.returned roots = true →
            ∀ p ∈ s.out, ∃ (nf nb : Int), t.nfiles[p.1]? = some nf ∧
              t.nbytes[p.1]? = some nb ∧ p.2.1 ≤ nf ∧ p.2.2 ≤ nb) := by
  have hS := hR.snap
  have key : ∀ (j : Nat) (r : Node), roots[j]? = some r → r.inRange →
      ∀ (t : State), Reachable K roots verbose t → t.returned roots = true →
        ∀ p ∈ s.out, p.1 = j →
          ∃ (nf nb : Int), t.nfiles[j]? = some nf ∧ t.nbytes[j]? = some nb ∧
            p.2.1 ≤ nf ∧ p.2.2 ≤ nb := by
    intro j r hr hG t ht htr p hp hpj
    subst hpj
    obtain ⟨_, _, hc, hb⟩ := hR.inv.exact p.1 r hr hG (hR.pos_at hr hG)
    obtain ⟨hF, hBy⟩ := ht.inv.final htr p.1 r hr
    have hle := hS.le p hp r hr hG
    have hb0 : 0 ≤ r.bytes := walk_sum_nonneg hG.1
    refine ⟨_, _, hF, hBy, ?_, ?_⟩
    · rw [wrap64_count _ hG.2.1]; omega
    · rw [wrap64_of_range _ (by omega) hG.2.2]; omega
  refine ⟨hS.valid, ?_, ?_⟩
  · intro j r hr hN hc hb
    have hG : r.inRange := ⟨hN, hc, hb⟩
    refine ⟨?_, key j r hr hG⟩
    refine hS.mono.imp ?_
    intro p q hpq hpj hqj
    exact hpq (hpj.trans hqj.symm) r (hpj ▸ hr) hG
  · intro hN hB
    have hG : ∀ (j : Nat) (r : Node), roots[j]? = some r → r.inRange := by
      intro j r hr
      exact ⟨hN r (mem_of_root hr), hB r (mem_of_root hr)⟩
    constructor
    · refine hS.mono.imp_of_mem ?_
      intro p q hp _ hpq heq
      have hv := hS.valid p hp
      have hr : roots[p.1]? = some roots[p.1] := List.getElem?_eq_getElem hv
      exact hpq heq _ hr (hG _ _ hr)
    · intro t ht htr p hp
      have hv := hS.valid p hp
      have hr : roots[p.1]? = some roots[p.1] := List.getElem?_eq_getElem hv
      exact key p.1 _ hr (hG _ _ hr) t ht htr p hp rfl

theorem reachable_getD {K : Nat} {roots : List Node} {verbose : Bool} (acts : List Act) :
    Reachable K roots verbose
      ((runActs K roots verbose acts (init roots)).getD (init roots)) := by
  cases h : runActs K roots verbose acts (init roots) with
  | none => exact Reachable.init
  | some s => exact reachable_of_runActs acts _ s Reachable.init h

theorem progress_monotone_in_range_witness :
    mixedRoots[0]? = some smallPair ∧ (∀ x ∈ smallPair.walk, 0 ≤ x) ∧
      smallPair.count < 9223372036854775808 ∧ smallPair.bytes < 9223372036854775808 ∧
      mixedTicked.out =
        [(0, 1, 3), (0, 2, 8), (1, 1, 4611686018427387904), (1, 2, -9223372036854775808)] ∧
      mixedTicked.out.Pairwise
        (fun p q => p.1 = 0 → q.1 = 0 → p.2.1 ≤ q.2.1 ∧ p.2.2 ≤ q.2.2) :=
  ⟨rfl, by decide, by decide, by decide, by decide,
    ((progress_monotone_in_range 2 mixedRoots true mixedTicked
      (reachable_getD mixedSchedule)).2.1 0 smallPair rfl (by decide) (by decide)
        (by decide)).1⟩

/-- C4, counterexample. A verbose scan of two files of 2^62 bytes in which the
timer fires after each file: the progress lines are `(1, 2^62)` and then
`(2, -2^63)`, so the byte count decreases, and the first line exceeds the
returned total `-2^63`. -/
theorem progress_not_monotone :
    (runActs semaCap [sparsePair] true tickSchedule (init [sparsePair])).map State.out =
        some [(0, 1, 4611686018427387904), (0, 2, -9223372036854775808)] ∧
      ¬ SnapLe (0, 1, 4611686018427387904) (0, 2, -9223372036854775808) ∧
      GetDiskUsage semaCap [sparsePair] true = ([2], [-9223372036854775808]) := by
  refine ⟨by decide, ?_, by decide⟩
  intro h
  have := (h rfl).2
  revert this
  decide

/-- C5. The `WaitGroup` counter of a root starts at one when its scan is
launched. In every reachable state the counter of the root being scanned is
non-negative and equals the number of `walkDir` goroutines spawned and not yet
finished; once it is zero no step of that scan changes it, so it is never
incremented again: a step that increments it adds one, and is taken either
while the counter is non-zero or to launch the scan of the next root with a
new `WaitGroup`; the closer goroutine has passed `wg.Wait()` (so also: the
channel is closed) only in states where the counter is zero and no goroutine is
left to send a size; and in every schedule after which `GetDiskUsage` has
returned, the counter has passed from non-zero to zero exactly once per root. -/
theorem waitgroup_counter (K : Nat) (roots : List Node) (verbose : Bool) (s : State)
    (hR : Reachable K roots verbose s) :
    (∀ (s2 : State), exec K roots verbose .launch s = some s2 → s2.wg = 1) ∧
      0 ≤ s.wg ∧ s.wg = s.tasks.length ∧
      (∀ (s2 : State), Step K roots verbose s s2 → s.active = true → s.wg = 0 → s2.wg = 0) ∧
      (∀ (s2 : State), Step K roots verbose s s2 → s.wg < s2.wg →
        (s.wg ≠ 0 ∨ s.active = false) ∧ s2.wg = s.wg + 1) ∧
      (s.closer ≠ .waiting → s.wg = 0 ∧ s.tasks = [] ∧ pendCount s.tasks = 0) ∧
      (∀ (acts : List Act), runActs K roots verbose acts (init roots) = some s →
        s.returned roots = true → zeroings K roots verbose acts (init roots) = roots.length) := by
  have hI := hR.inv
  refine ⟨?_, ?_, hI.wgEq, ?_, ?_, ?_, ?_⟩
  · intro s2 h
    obtain ⟨_, r, _, rfl⟩ := exec_launch h
    rfl
  · rw [hI.wgEq]; exact Int.ofNat_nonneg _
  · intro s2 hs ha hz
    obtain ⟨a, h⟩ := hs
    exact exec_wg_zero hI h ha hz
  · intro s2 hs hlt
    obtain ⟨a, h⟩ := hs
    cases a with
    | launch =>
      obtain ⟨h0, r, _, rfl⟩ := exec_launch h
      have h2 : s.wg = 0 := by
        have := hI.wgEq; rw [hI.idle h0] at this; simpa using this
      exact ⟨Or.inr h0, by simp [h2]⟩
    | acquire k => obtain ⟨d, _, _, rfl⟩ := exec_acquire h; simp at hlt
    | list k => obtain ⟨d, _, _, rfl⟩ := exec_list h; simp at hlt
    | visit k =>
      obtain ⟨e, es, hd, h1 | h1⟩ := exec_visit h
      · obtain ⟨_, rfl⟩ := h1
        have hl := (List.getElem?_eq_some_iff.mp hd).1
        have := hI.wgEq
        exact ⟨Or.inl (by omega), rfl⟩
      · obtain ⟨_, _, _, rfl⟩ := h1; simp at hlt
    | done k => obtain ⟨_, rfl⟩ := exec_done h; simp only at hlt; omega
    | wake => obtain ⟨_, _, _, rfl⟩ := exec_wake h; simp at hlt
    | close => obtain ⟨_, _, rfl⟩ := exec_close h; simp at hlt
    | brk => obtain ⟨_, _, rfl⟩ := exec_brk h; simp at hlt
    | tick => obtain ⟨_, _, rfl⟩ := exec_tick h; simp at hlt
  · intro hc
    have ht := hI.closing hc
    refine ⟨?_, ht, ?_⟩
    · rw [hI.wgEq, ht]; rfl
    · rw [ht]; rfl
  · intro acts hrun hret
    have h1 := zeroings_eq acts (init roots) s Reachable.init hrun
    have h2 : s.zerosLeft roots = 0 := by
      simp [State.returned] at hret
      simp [State.zerosLeft, hret.1]; omega
    have h3 : (init roots).zerosLeft roots = roots.length := by
      simp [State.zerosLeft, init]
    omega

theorem waitgroup_counter_witness :
    (0 ≤ sampleMid.wg ∧ sampleMid.wg = sampleMid.tasks.length ∧ sampleMid.wg = 1) ∧
      fileRootFinal.returned [fileRoot] = true ∧
      zeroings 1 [fileRoot] false fileRootSchedule (init [fileRoot]) = [fileRoot].length :=
  have h := waitgroup_counter 2 sampleRoots true sampleMid (run_reachable 12 _ Reachable.init)
  ⟨⟨h.2.1, h.2.2.1, by decide⟩, by decide,
    (waitgroup_counter 1 [fileRoot] false fileRootFinal
      (reachable_getD fileRootSchedule)).2.2.2.2.2.2 fileRootSchedule (by rfl) (by decide)⟩

/-- C6. In every reachable state the number of tokens in `sema` equals the
number of goroutines that are inside `dirents` between the acquire and the
return, and is at most the capacity `K`; entering `dirents` adds one token,
leaving it removes one whether or not the listing failed, and no other step
changes the number of tokens; a `dirents` call run on its own returns with the
number of tokens it found, whether the listing succeeds or fails. -/
theorem sema_tokens (K : Nat) (roots : List Node) (verbose : Bool) (s : State)
    (hR : Reachable K roots verbose s) :
    s.held = s.tasks.countP Task.inDirents ∧ s.held ≤ K ∧
      (∀ (j : Nat) (s2 : State), exec K roots verbose (.acquire j) s = some s2 →
        s.held < K ∧ s2.held = s.held + 1) ∧
      (∀ (j : Nat) (s2 : State), exec K roots verbose (.list j) s = some s2 →
        s2.held + 1 = s.held) ∧
      (∀ (a : Act) (s2 : State), exec K roots verbose a s = some s2 →
        (∀ j, a ≠ .acquire j) → (∀ j, a ≠ .list j) → s2.held = s.held) ∧
      (∀ (d : Node) (held : Nat), held < K →
        dirents K held d = some (held, direntsResult d)) := by
  have hI := hR.inv
  refine ⟨?_, hI.heldLe, ?_, ?_, ?_, ?_⟩
  · rw [hI.heldEq, tokens_eq_countP]
  · intro j s2 h
    obtain ⟨d, _, hlt, rfl⟩ := exec_acquire h
    exact ⟨hlt, rfl⟩
  · intro j s2 h
    obtain ⟨d, _, hpos, rfl⟩ := exec_list h
    show s.held - 1 + 1 = s.held
    omega
  · intro a s2 h h1 h2
    exact exec_held h h1 h2
  · intro d held hh
    have h2 : 0 < held + 1 := Nat.succ_pos _
    simp only [dirents, semaAcquire, semaRelease, hh, h2, if_true, Option.some_bind,
      Option.map_some', Nat.add_sub_cancel]

theorem sema_tokens_witness :
    wideState.held = wideState.tasks.countP Task.inDirents ∧ wideState.held ≤ semaCap ∧
      wideState.held = 21 :=
  have h := sema_tokens semaCap [wideTree] false wideState (reachable_getD wideSchedule)
  ⟨h.1, h.2.1, by decide⟩

/-- C7. A tick changes nothing but the list of progress lines: the loop index,
the totals, the goroutines (so nothing is received from the channel), the
counter, the closer and the semaphore are as before.  For every list of roots
the totals returned with `verbose = true` are those returned with
`verbose = false`, whatever the schedules and the ticks, and with
`verbose = false` no progress line is ever printed. -/
theorem tick_frame (K : Nat) (roots : List Node) (hK : 0 < K) :
    (∀ (verbose : Bool) (s s2 : State), exec K roots verbose .tick s = some s2 →
        s2.i = s.i ∧ s2.active = s.active ∧ s2.nfiles = s.nfiles ∧ s2.nbytes = s.nbytes ∧
          s2.tasks = s.tasks ∧ s2.wg = s.wg ∧ s2.closer = s.closer ∧ s2.held = s.held ∧
          s2.out = s.out ++ [(s.i, s.nfiles.getD s.i 0, s.nbytes.getD s.i 0)]) ∧
      GetDiskUsage K roots true = GetDiskUsage K roots false ∧
      (∀ (s t : State), Reachable K roots true s → s.returned roots = true →
        Reachable K roots false t → t.returned roots = true →
          s.nfiles = t.nfiles ∧ s.nbytes = t.nbytes) ∧
      (∀ (t : State), Reachable K roots false t →
        t.out = [] ∧ ∀ (t2 : State), exec K roots false .tick t ≠ some t2) := by
  refine ⟨?_, ?_, ?_, ?_⟩
  · intro verbose s s2 h
    obtain ⟨_, _, rfl⟩ := exec_tick h
    exact ⟨rfl, rfl, rfl, rfl, rfl, rfl, rfl, rfl, rfl⟩
  · rw [GetDiskUsage_eq hK, GetDiskUsage_eq hK]
  · intro s t hs hsr ht htr
    have h1 := hs.inv.final_lists hsr
    have h2 := ht.inv.final_lists htr
    exact ⟨h1.1.trans h2.1.symm, h1.2.trans h2.2.symm⟩
  · intro t ht
    refine ⟨ht.inv.quiet rfl, ?_⟩
    intro t2 h
    obtain ⟨hv, _⟩ := exec_tick h
    cases hv

theorem tick_frame_witness :
    0 < 2 ∧ GetDiskUsage 2 sampleRoots true = GetDiskUsage 2 sampleRoots false ∧
      GetDiskUsage 2 sampleRoots true = ([3, 0, 3], [12, 0, 12]) :=
  ⟨by decide, (tick_frame 2 sampleRoots (by decide)).2.1, by decide⟩

/-- C10, the code at the failing input. The capacity of `sema` is 100, not 20:
in a scan of a directory with twenty-one sub-directories, run with the
capacity of the source, a state is reached in which twenty-one goroutines hold
a token and are inside `dirents` at the same time. -/
theorem sema_admits_twenty_one :
    semaCap = 100 ∧ Reachable semaCap [wideTree] false wideState ∧
      wideState.held = 21 ∧ wideState.tasks.countP Task.inDirents = 21 ∧
      runActs semaCap [wideTree] false wideSchedule (init [wideTree]) = some wideState :=
  ⟨rfl, reachable_getD wideSchedule, by decide, by decide, by rfl⟩

end DiskUsage

namespace ImageConv

/-! ## Properties of `parseflags` and `imgconv` -/

theorem SplitChars_no_sep (sep : Char) : ∀ (cs : List Char), sep ∉ cs →
    SplitChars sep cs = [cs]
  | [], _ => rfl
  | c :: cs, h => by
    have hc : c ≠ sep := fun e => h (by simp [e])
    have hcs : sep ∉ cs := fun e => h (by simp [e])
    simp only [SplitChars, hc, if_false, SplitChars_no_sep sep cs hcs]

/-- C9. The error returned by `parseflags` is non-nil exactly when the
lower-cased `-type` value is not one of `jpeg`, `jpg`, `png`, `gif` (so also
when it is empty); otherwise the result is the list of non-flag arguments,
unchanged and in order, with a nil error, also when that list is empty; two
flag values with the same lower-casing give the same result. -/
theorem parseflags_error_iff (ToLower : String → String) (typeFlag : String)
    (args : List String) :
    ((parseflags ToLower typeFlag args).2 ≠ none ↔
        ToLower typeFlag ∉ ["jpeg", "jpg", "png", "gif"]) ∧
      (ToLower typeFlag = "" → (parseflags ToLower typeFlag args).2 ≠ none) ∧
      (ToLower typeFlag ∈ ["jpeg", "jpg", "png", "gif"] →
        parseflags ToLower typeFlag args = (args, none) ∧
          parseflags ToLower typeFlag [] = ([], none)) ∧
      (∀ (other : String), ToLower other = ToLower typeFlag →
        parseflags ToLower other args = parseflags ToLower typeFlag args) := by
  have key : ∀ (as : List String), ToLower typeFlag ∈ ["jpeg", "jpg", "png", "gif"] →
      parseflags ToLower typeFlag as = (as, none) := by
    intro as h
    simp only [List.mem_cons, List.mem_singleton, List.not_mem_nil, or_false] at h
    rcases h with h | h | h | h <;> simp [parseflags, h]
  have key2 : ToLower typeFlag ∉ ["jpeg", "jpg", "png", "gif"] →
      (parseflags ToLower typeFlag args).2 ≠ none := by
    intro h
    simp only [List.mem_cons, List.mem_singleton, List.not_mem_nil, or_false, not_or] at h
    obtain ⟨h1, h2, h3, h4⟩ := h
    simp only [parseflags]
    split_ifs with h5 h6
    · simp
    · simp
    · exact absurd ⟨h1, h2, h3, h4⟩ h6
  refine ⟨⟨?_, key2⟩, ?_, fun h => ⟨key args h, key [] h⟩, ?_⟩
  · intro h hmem
    rw [key args hmem] at h
    exact h rfl
  · intro h
    apply key2
    rw [h]
    decide
  · intro other h
    simp only [parseflags, h]

theorem parseflags_error_iff_witness :
    parseflags asciiLower "PNG" ["a.gif", "b.jpg"] = (["a.gif", "b.jpg"], none) ∧
      parseflags asciiLower "Jpeg" [] = ([], none) ∧
      (parseflags asciiLower "" ["a.gif"]).2 ≠ none ∧
      (parseflags asciiLower "bmp" ["a.gif"]).2 ≠ none :=
  ⟨((parseflags_error_iff asciiLower "PNG" ["a.gif", "b.jpg"]).2.2.1 (by decide)).1,
    ((parseflags_error_iff asciiLower "Jpeg" []).2.2.1 (by decide)).2,
    (parseflags_error_iff asciiLower "" ["a.gif"]).2.1 (by decide),
    (parseflags_error_iff asciiLower "bmp" ["a.gif"]).1.mpr (by decide)⟩

/-- C8, the code at the failing inputs. For a source that can be opened and
whose base name has no `'.'`, such as `README`, `imgconv` fails at
`nameAndForm[1]` with an index out of range instead of reporting an unsupported
format.  With more than one `'.'` the text between the first two dots is taken
for the format: `holiday.2019.png` (extension `png`) is reported unsupported,
`scan.png.txt` (extension `txt`) goes on to the creation of the output file. -/
theorem imgconv_validation_slips (Dir : String → String) (outFileType destFilePath : String) :
    (∀ (sImg : String), '.' ∉ (Base sImg).toList →
        imgconv Dir outFileType destFilePath true sImg = .indexOutOfRange) ∧
      imgconv Dir outFileType destFilePath true "README" = .indexOutOfRange ∧
      extension (Base "pics/holiday.2019.png") = some "png" ∧
      imgconv Dir outFileType destFilePath true "pics/holiday.2019.png" = .unsupported "2019" ∧
      extension (Base "scan.png.txt") = some "txt" ∧
      (∃ (name : String), imgconv Dir outFileType destFilePath true "scan.png.txt" =
        .create name) := by
  refine ⟨?_, rfl, by decide, rfl, by decide, ⟨_, rfl⟩⟩
  intro sImg h
  have hs : Split (Base sImg) = [Base sImg] := by
    simp only [Split, SplitChars_no_sep '.' _ h, List.map_cons, List.map_nil]
    rfl
  simp only [imgconv, hs]
  rfl

end ImageConv
